import Mathlib

/-!
# libapac: limb kernels and signed dispatch

A shallow embedding of `libapac.h`.  Limb buffers live in a block-structured
memory (one block per C object); a pointer is a block together with a limb
offset, so that reads and writes outside an object are detected.  Limbs are
natural numbers below `2 ^ 64`; every `uint64_t` operation is reduced modulo
`2 ^ 64` where the C code can wrap.
-/

namespace Libapac

/-! ## Memory model -/

/-- The radix of the representation: one limb is a `uint64_t`. -/
def BASE : Nat := 2 ^ 64

/-- A pointer to `u64`: the object it points into and a limb offset inside it. -/
structure Ptr where
  blk : Nat
  off : Nat
deriving DecidableEq, Repr

/-- Pointer arithmetic `p + k` on a `u64 *`. -/
def Ptr.add (p : Ptr) (k : Nat) : Ptr := ⟨p.blk, p.off + k⟩

/-- The memory: the limbs of every object; an object that was never allocated
(or was freed) has no limbs. -/
abbrev Mem := Nat → List Nat

/-- The read `p[i]`; `none` when the index lies outside the object. -/
def load (mem : Mem) (p : Ptr) (i : Nat) : Option Nat :=
  (mem p.blk)[p.off + i]?

/-- The memory after `p[i] = v` (no bounds check, see `store`). -/
def Mem.write (mem : Mem) (p : Ptr) (i v : Nat) : Mem :=
  fun b => if b = p.blk then (mem p.blk).set (p.off + i) v else mem b

/-- The write `p[i] = v`; `none` when the index lies outside the object. -/
def store (mem : Mem) (p : Ptr) (i v : Nat) : Option Mem :=
  if p.off + i < (mem p.blk).length then some (mem.write p i v) else none

/-- The limb `p[i]`, `0` outside the object (used in statements only). -/
def limb (mem : Mem) (p : Ptr) (i : Nat) : Nat :=
  (mem p.blk).getD (p.off + i) 0

/-- The weighted sum of `f 0, ..., f (n-1)`: the sum of `f i * 2^(64*i)`. -/
def wsum (f : Nat → Nat) : Nat → Nat
  | 0 => 0
  | n + 1 => wsum f n + f n * BASE ^ n

/-- The little-endian value of `p[0..n)`: the sum of `p[i] * 2^(64*i)`. -/
def value (mem : Mem) (p : Ptr) (n : Nat) : Nat :=
  wsum (limb mem p) n

/-- The limbs `p[0..n)` as a list (used to display results). -/
def limbs (mem : Mem) (p : Ptr) (n : Nat) : List Nat :=
  (List.range n).map (limb mem p)

/-- The little-endian value of a list of limbs. -/
def lvalue : List Nat → Nat
  | [] => 0
  | x :: xs => x + BASE * lvalue xs

/-- The limbs `p[0..n)` form an array of `n` limbs inside the object of `p`. -/
def IsArray (mem : Mem) (p : Ptr) (n : Nat) : Prop :=
  p.off + n ≤ (mem p.blk).length ∧ ∀ i, i < n → limb mem p i < BASE

instance (mem : Mem) (p : Ptr) (n : Nat) : Decidable (IsArray mem p n) := by
  unfold IsArray; infer_instance

/-- The macro `ASSERT(x)`: with the default definition (`assert`) a false
condition aborts; the header lets the includer redefine it, which `chk = false`
stands for (the check is compiled out). -/
def ASSERT (chk : Bool) (x : Bool) : Option Unit :=
  if chk && !x then none else some ()

/-! ## Intrinsics -/

/-- The carry flag an `unsigned char` carry-in sets. -/
def cbit (c : Nat) : Nat := if c = 0 then 0 else 1

/-- The intrinsic `_addcarry_u64(c_in, a, b, &out)`: returns `(carry_out, out)`. -/
def _addcarry_u64 (c_in a b : Nat) : Nat × Nat :=
  ((a + b + cbit c_in) / BASE, (a + b + cbit c_in) % BASE)

/-- The intrinsic `_subborrow_u64(b_in, a, b, &out)`: computes `a - (b + b_in)`, returns
`(borrow_out, out)`. -/
def _subborrow_u64 (b_in a b : Nat) : Nat × Nat :=
  if a < b + cbit b_in then (1, (a + BASE - (b + cbit b_in)) % BASE)
  else (0, (a - (b + cbit b_in)) % BASE)

/-- The intrinsic `_umul128(a, b, &high)`: returns `(high, low)` of the 128-bit product. -/
def _umul128 (a b : Nat) : Nat × Nat :=
  ((a * b) / BASE % BASE, (a * b) % BASE)

/-! ## Low level kernels -/

/-- The loop of `apz_abs_add_x64`, `k` iterations from index `i` on. -/
def abs_add_loop (result op1 op2 : Ptr) : Nat → Nat → Nat → Mem → Option (Mem × Nat)
  | 0, _, carry, mem => some (mem, carry)
  | k + 1, i, carry, mem => do
    let a ← load mem op1 i
    let b ← load mem op2 i
    let (c, s) := _addcarry_u64 carry a b
    let mem1 ← store mem result i s
    abs_add_loop result op1 op2 k (i + 1) c mem1

/-- The function `apz_abs_add_x64(result, op1, op2, seg_count)`: the memory afterwards and
the returned carry. -/
def apz_abs_add_x64 (mem : Mem) (result op1 op2 : Ptr) (seg_count : Nat) : Option (Mem × Nat) :=
  abs_add_loop result op1 op2 seg_count 0 0 mem

/-- The `while (counter < seg_count)` loop of `apz_abs_add_ui_x64`. -/
def abs_add_ui_loop (result_arr op1_arr : Ptr) : Nat → Nat → Nat → Mem → Option (Mem × Nat)
  | 0, _, carry, mem => some (mem, carry)
  | k + 1, counter, carry, mem => do
    let a ← load mem op1_arr counter
    let (c, s) := _addcarry_u64 carry a 0
    let mem1 ← store mem result_arr counter s
    abs_add_ui_loop result_arr op1_arr k (counter + 1) c mem1

/-- The function `apz_abs_add_ui_x64(result_arr, op1_arr, val, seg_count)`: limb 0 is
processed before the loop condition is first tested. -/
def apz_abs_add_ui_x64 (mem : Mem) (result_arr op1_arr : Ptr) (val seg_count : Nat) :
    Option (Mem × Nat) := do
  let a ← load mem op1_arr 0
  let (c, s) := _addcarry_u64 0 a val
  let mem1 ← store mem result_arr 0 s
  abs_add_ui_loop result_arr op1_arr (seg_count - 1) 1 c mem1

/-- The loops of `apz_abs_sub_x64`: `k` iterations from index `i` on, the
subtrahend limb being `op2[i]` (first loop) or the constant 0 (second loop). -/
def abs_sub_loop (result op1 : Ptr) (op2 : Option Ptr) : Nat → Nat → Nat → Mem → Option (Mem × Nat)
  | 0, _, borrow, mem => some (mem, borrow)
  | k + 1, i, borrow, mem => do
    let a ← load mem op1 i
    let b ← match op2 with
      | some q => load mem q i
      | none => some 0
    let (c, s) := _subborrow_u64 borrow a b
    let mem1 ← store mem result i s
    abs_sub_loop result op1 op2 k (i + 1) c mem1

/-- The function `apz_abs_sub_x64(result, op1, op2, op1_size, op2_size)`.  The C function
has no `return` statement; no caller uses its value, so only the memory is
returned. -/
def apz_abs_sub_x64 (chk : Bool) (mem : Mem) (result op1 op2 : Ptr) (op1_size op2_size : Nat) :
    Option Mem := do
  ASSERT chk (decide (op1_size ≥ op2_size))
  let (mem1, borrow1) ← abs_sub_loop result op1 (some op2) op2_size 0 0 mem
  let (mem2, borrow2) ← abs_sub_loop result op1 none (op1_size - op2_size) op2_size borrow1 mem1
  ASSERT chk (decide (borrow2 = 0))
  some mem2

/-- The five statements of the inner multiplier loop, shared textually by
`apz_mul_ui_x64` and `apz_mul_basecase_x64`: from the state `(high64, aux2)`,
the two factors and the limb `r` already in the result, the new
`(high64, aux2, result limb)`. -/
def mul_step (high64 aux2 x y r : Nat) : Nat × Nat × Nat :=
  let temp_reg := (high64 + aux2) % BASE
  let (high1, low64) := _umul128 x y
  let (aux1, temp_reg1) := _addcarry_u64 0 temp_reg low64
  let (_, high2) := _addcarry_u64 aux1 high1 0
  let (aux2a, r1) := _addcarry_u64 0 temp_reg1 r
  (high2, aux2a, r1)

/-- The loop of `apz_mul_ui_x64`: `k` iterations from `j` on. -/
def mul_ui_loop (result op1 : Ptr) (val : Nat) : Nat → Nat → Nat → Nat → Mem → Option (Mem × Nat × Nat)
  | 0, _, high64, aux2, mem => some (mem, high64, aux2)
  | k + 1, j, high64, aux2, mem => do
    let a ← load mem op1 j
    let r ← load mem result j
    let (h, c, r1) := mul_step high64 aux2 a val r
    let mem1 ← store mem result j r1
    mul_ui_loop result op1 val k (j + 1) h c mem1

/-- The function `apz_mul_ui_x64(result, op1, op1_size, val)`. -/
def apz_mul_ui_x64 (mem : Mem) (result op1 : Ptr) (op1_size val : Nat) : Option Mem := do
  let (mem1, high64, aux2) ← mul_ui_loop result op1 val op1_size 0 0 0 mem
  let r ← load mem1 result op1_size
  store mem1 result op1_size ((r + (aux2 + high64) % BASE) % BASE)

/-- The inner loop (over `j`) of `apz_mul_basecase_x64` for row `i`. -/
def mul_basecase_inner (result_arr arr1 arr2 : Ptr) (i : Nat) :
    Nat → Nat → Nat → Nat → Mem → Option (Mem × Nat × Nat)
  | 0, _, high64, aux2, mem => some (mem, high64, aux2)
  | k + 1, j, high64, aux2, mem => do
    let a ← load mem arr1 i
    let b ← load mem arr2 j
    let r ← load mem result_arr (i + j)
    let (h, c, r1) := mul_step high64 aux2 a b r
    let mem1 ← store mem result_arr (i + j) r1
    mul_basecase_inner result_arr arr1 arr2 i k (j + 1) h c mem1

/-- The outer loop (over `i`) of `apz_mul_basecase_x64`: `k` rows from `i` on. -/
def mul_basecase_outer (result_arr arr1 arr2 : Ptr) (arr2_size : Nat) :
    Nat → Nat → Mem → Option Mem
  | 0, _, mem => some mem
  | k + 1, i, mem => do
    let (mem1, high64, aux2) ← mul_basecase_inner result_arr arr1 arr2 i arr2_size 0 0 0 mem
    let r ← load mem1 result_arr (i + arr2_size)
    let mem2 ← store mem1 result_arr (i + arr2_size) ((r + (aux2 + high64) % BASE) % BASE)
    mul_basecase_outer result_arr arr1 arr2 arr2_size k (i + 1) mem2

/-- The function `apz_mul_basecase_x64(result_arr, arr1, arr2, arr1_size, arr2_size)`. -/
def apz_mul_basecase_x64 (mem : Mem) (result_arr arr1 arr2 : Ptr) (arr1_size arr2_size : Nat) :
    Option Mem :=
  mul_basecase_outer result_arr arr1 arr2 arr2_size arr1_size 0 mem

/-- Three arrays as in `test.c`: object 0 holds `a`, object 1 holds `b`,
object 2 holds the result array `c`. -/
def mem3 (a b c : List Nat) : Mem := fun blk =>
  if blk = 0 then a else if blk = 1 then b else if blk = 2 then c else []

/-- The scan `for (counter = size1 - 1; counter >= 1; counter--)` of
`apz_abs_cmp`, leaving at the first differing limb: the value of `counter` at
the label `is_greater`. -/
def abs_cmp_scan (mem : Mem) (op1 op2 : Ptr) : Nat → Option Nat
  | 0 => some 0
  | c + 1 => do
    let a ← load mem op1 (c + 1)
    let b ← load mem op2 (c + 1)
    if a ≠ b then some (c + 1) else abs_cmp_scan mem op1 op2 c

/-- The function `apz_abs_cmp(op1, op2, size1, size2)`; `counter = size1 - 1` is computed in
`u64`, so it wraps to `2^64 - 1` when `size1 = 0`. -/
def apz_abs_cmp (mem : Mem) (op1 op2 : Ptr) (size1 size2 : Nat) : Option Int :=
  if size1 > size2 then some 1
  else if size2 > size1 then some (-1)
  else do
    let counter ← abs_cmp_scan mem op1 op2 ((size1 + BASE - 1) % BASE)
    let a ← load mem op1 counter
    let b ← load mem op2 counter
    some (if a > b then 1 else if a < b then -1 else 0)

/-- The function `apz_trim(op_arr, size)`: the loop variable `new_size` is the recursion
argument. -/
def apz_trim (mem : Mem) (op_arr : Ptr) : Nat → Option Nat
  | 0 => some 0
  | n + 1 => do
    let x ← load mem op_arr n
    if x = 0 then apz_trim mem op_arr n else some (n + 1)

/-- The loop `for (i = size; i-- > 0;) op1[i] = ~op1[i]` of
`apz_base_compliment`. -/
def compliment_loop (op1 : Ptr) : Nat → Mem → Option Mem
  | 0, mem => some mem
  | i + 1, mem => do
    let x ← load mem op1 i
    let mem1 ← store mem op1 i (BASE - 1 - x % BASE)
    compliment_loop op1 i mem1

/-- The function `apz_base_compliment(op1, size)`. -/
def apz_base_compliment (mem : Mem) (op1 : Ptr) (size : Nat) : Option Mem := do
  let mem1 ← compliment_loop op1 size mem
  let (mem2, _) ← apz_abs_add_ui_x64 mem1 op1 op1 1 size
  some mem2

/-! ## Karatsuba -/

/-- The constant `KARATSUBA_THRESHOLD` of the header. -/
def KARATSUBA_THRESHOLD : Nat := 1

/-- The state `apz_mul_karatsuba_x64` works on: the memory and its two
function-level `static uint8_t` variables. -/
structure KState where
  mem : Mem
  depth : Nat
  alloc_ws : Nat

/-- The entry of `apz_mul_karatsuba_x64`: the lazy allocation of the workspace
`if (!depth && !workspace)`.  `fresh` is what `malloc_ptr` returns: `none` for
`NULL` (the `memset` then traps), `some b` for a new object `b`, which the
`memset` zeroes. -/
def karatsuba_enter (fresh : Option Nat) (st : KState) (size : Nat) (workspace : Option Ptr) :
    Option (KState × Option Ptr) :=
  if st.depth = 0 ∧ workspace = none then
    match fresh with
    | none => none
    | some b =>
      some ({ st with
              mem := fun blk => if blk = b then List.replicate (8 * ((size + 1) / 2)) 0
                                else st.mem blk,
              alloc_ws := 1 }, some (Ptr.mk b 0))
  else some (st, workspace)

/-- The part of `apz_mul_karatsuba_x64` between the second and the third
recursive call: the four trims, the two compares, and `|a0 - a1|`, `|b0 - b1|`
written to `workspace` and `workspace + low`.  Returns the memory, `cmp1` and
`cmp2`.  The source calls the five-parameter `apz_abs_sub_x64` with four
arguments (the fourth being `op1_size`); `arg5` gives the absent `op2_size` as
a function of the fourth argument. -/
def karatsuba_diffs (chk : Bool) (arg5 : Nat → Nat) (mem : Mem) (op1 op2 ws : Ptr)
    (low high : Nat) : Option (Mem × Int × Int) := do
  let trim_a0 ← apz_trim mem op1 low
  let trim_a1 ← apz_trim mem (op1.add low) high
  let trim_b0 ← apz_trim mem op1 low
  let trim_b1 ← apz_trim mem (op1.add low) high
  let cmp1 ← apz_abs_cmp mem op1 (op1.add low) trim_a0 trim_a1
  let cmp2 ← apz_abs_cmp mem op2 (op2.add low) trim_b0 trim_b1
  let m5 ←
    (if cmp1 ≥ 0 then apz_abs_sub_x64 chk mem ws op1 (op1.add low) low (arg5 low)
     else apz_abs_sub_x64 chk mem ws (op1.add low) op1 low (arg5 low))
  let m6 ←
    (if cmp2 ≥ 0 then apz_abs_sub_x64 chk m5 (ws.add low) op2 (op2.add low) low (arg5 low)
     else apz_abs_sub_x64 chk m5 (ws.add low) (op2.add low) op2 low (arg5 low))
  some (m6, cmp1, cmp2)

/-- The part of `apz_mul_karatsuba_x64` after the third recursive call: the
middle term is completed in `workspace + 2*low`, added into `result + low`, and
the carry is propagated from `result + 3*low`. -/
def karatsuba_combine (chk : Bool) (arg5 : Nat → Nat) (mem : Mem) (result ws : Ptr)
    (size low high : Nat) (cmp1 cmp2 : Int) : Option Mem := do
  let m8 ←
    (if (cmp1 ≥ 0 ∧ cmp2 ≥ 0) ∨ (cmp1 = -1 ∧ cmp2 = -1) then do
      let n1 ← apz_abs_sub_x64 chk mem (ws.add (low * 2)) (ws.add (low * 2)) result
                (low * 2) (arg5 (low * 2))
      let n2 ← apz_abs_sub_x64 chk n1 (ws.add (low * 2)) (ws.add (low * 2))
                (result.add (low * 2)) (high * 2) (arg5 (high * 2))
      apz_base_compliment n2 (ws.add (low * 2)) (low * 2)
    else do
      let (n1, _) ← apz_abs_add_x64 mem (ws.add (low * 2)) (ws.add (low * 2)) result (low * 2)
      let (n2, _) ← apz_abs_add_x64 n1 (ws.add (low * 2)) (ws.add (low * 2))
                      (result.add (low * 2)) (high * 2)
      some n2)
  let (m9, c) ← apz_abs_add_x64 m8 (result.add low) (result.add low) (ws.add (low * 2)) (low * 2)
  let (m10, _) ← apz_abs_add_ui_x64 m9 (result.add (low * 3)) (result.add (low * 3)) c
                  (2 * size - 3 * low)
  some m10

/-- The exit of `apz_mul_karatsuba_x64`: `depth--` and the release of a
workspace the outermost call allocated. -/
def karatsuba_leave (st : KState) (ws : Ptr) : KState :=
  let depth1 := (st.depth + 255) % 256
  if depth1 = 0 ∧ st.alloc_ws ≠ 0 then
    { mem := fun blk => if blk = ws.blk then [] else st.mem blk, depth := depth1, alloc_ws := 0 }
  else
    { st with depth := depth1 }

/-- The recursion of `apz_mul_karatsuba_x64`; `fuel` bounds the recursion depth
(each level uses one unit, the base case none).  A `NULL` workspace that is
used is a trap. -/
def karatsuba_rec (chk : Bool) (arg5 : Nat → Nat) (fresh : Option Nat) :
    Nat → KState → Ptr → Ptr → Ptr → Nat → Option Ptr → Option KState
  | 0, st, result, op1, op2, size, workspace =>
    (karatsuba_enter fresh st size workspace).bind fun e =>
      if size ≤ KARATSUBA_THRESHOLD then
        (apz_mul_basecase_x64 e.1.mem result op1 op2 size size).map fun m => { e.1 with mem := m }
      else none
  | fuel + 1, st, result, op1, op2, size, workspace =>
    (karatsuba_enter fresh st size workspace).bind fun e =>
      if size ≤ KARATSUBA_THRESHOLD then
        (apz_mul_basecase_x64 e.1.mem result op1 op2 size size).map fun m => { e.1 with mem := m }
      else
        e.2.bind fun ws =>
        let st2 : KState := { e.1 with depth := (e.1.depth + 1) % 256 }
        let high := size / 2
        let low := (size + 1) / 2
        (karatsuba_rec chk arg5 fresh fuel st2 result op1 op2 low (some ws)).bind fun st3 =>
        (karatsuba_rec chk arg5 fresh fuel st3 (result.add (low * 2)) (op1.add low) (op2.add low)
          high (some ws)).bind fun st4 =>
        (karatsuba_diffs chk arg5 st4.mem op1 op2 ws low high).bind fun d =>
        (karatsuba_rec chk arg5 fresh fuel { st4 with mem := d.1 } (ws.add (2 * low)) ws
          (ws.add low) low (some (ws.add (4 * low)))).bind fun st7 =>
        (karatsuba_combine chk arg5 st7.mem result ws size low high d.2.1 d.2.2).map fun m =>
        karatsuba_leave { st7 with mem := m } ws

/-- The function `apz_mul_karatsuba_x64(result, op1, op2, size, workspace)`; `size` units of
fuel are enough for every `size`, the operand being at least halved (rounding
up) at each level. -/
def apz_mul_karatsuba_x64 (chk : Bool) (arg5 : Nat → Nat) (fresh : Option Nat) (st : KState)
    (result op1 op2 : Ptr) (size : Nat) (workspace : Option Ptr) : Option KState :=
  karatsuba_rec chk arg5 fresh size st result op1 op2 size workspace

/-- The program `test.c`: arrays `a`, `b` (objects 0 and 1), the zeroed array
`c` of twice the length (object 2), and the call
`apz_mul_karatsuba_x64(c, a, b, LIMB_COUNT, NULL)`; the workspace is the new
object 3.  Returns the limbs of `c`. -/
def test_main (chk : Bool) (arg5 : Nat → Nat) (a b : List Nat) : Option (List Nat) :=
  (apz_mul_karatsuba_x64 chk arg5 (some 3)
    { mem := mem3 a b (List.replicate (2 * a.length) 0), depth := 0, alloc_ws := 0 }
    ⟨2, 0⟩ ⟨0, 0⟩ ⟨1, 0⟩ a.length none).map (fun st => st.mem 2)

/-- The same arrays multiplied by `apz_mul_basecase_x64(c, a, b, n, n)`. -/
def basecase_main (a b : List Nat) : Option (List Nat) :=
  (apz_mul_basecase_x64 (mem3 a b (List.replicate (a.length + b.length) 0))
    ⟨2, 0⟩ ⟨0, 0⟩ ⟨1, 0⟩ a.length b.length).map (fun m => m 2)

/-! ## The bignum container -/

/-- The enumeration `libapac_err`. -/
inductive libapac_err where
  | LIBAPAC_OKAY
  | LIBAPAC_OOM
  | LIBAPAC_MATH_ERR
deriving DecidableEq, Repr

/-- The constant `APZ_ZPOS`. -/
def APZ_ZPOS : Nat := 0

/-- The constant `APZ_NEG`. -/
def APZ_NEG : Nat := 1

/-- The constant `ULLONG_MAX`. -/
def ULLONG_MAX : Nat := 2 ^ 64 - 1

/-- The record `apz_t`.  `num_array` is the object the C field points to, with
its real extent (which `seg_alloc` is meant to equal); the handle and the
buffer are not `NULL`, so the non-null `ASSERT`s of the source have no
counterpart. -/
structure apz_t where
  num_array : List Nat
  seg_alloc : Nat
  seg_in_use : Nat
  is_negative : Nat
deriving DecidableEq, Repr

/-- The call `memset(buf + off, 0, nbytes)` on a limb buffer, `off` counted in
limbs and `nbytes` in bytes: whole limbs are zeroed, and a final partial limb
loses its low `nbytes % 8` bytes (x64 is little-endian).  `none` when a byte
outside the object would be written. -/
def memset_zero (buf : List Nat) (off nbytes : Nat) : Option (List Nat) :=
  if nbytes = 0 then some buf
  else if off * 8 + nbytes ≤ buf.length * 8 then
    some (buf.mapIdx fun i v =>
      if off ≤ i ∧ i < off + nbytes / 8 then 0
      else if i = off + nbytes / 8 then v / 2 ^ (8 * (nbytes % 8)) * 2 ^ (8 * (nbytes % 8))
      else v)
  else none

/-- The function `apz_init_pos64(result, init_size, init_value)`: the status and, when
`malloc_ptr` succeeds, the initialised record.  `ma` is the outcome of the
`malloc_ptr(alloc_size)` call: `none` for `NULL`, `some junk` for a buffer of
`alloc_size` bytes whose limb `i` holds the indeterminate value `junk i`; the
zeros come from the `memset` of `seg_alloc * sizeof(u64)` bytes. -/
def apz_init_pos64 (chk : Bool) (ma : Option (Nat → Nat)) (init_size init_value : Nat) :
    Option (libapac_err × Option apz_t) := do
  ASSERT chk (decide (init_size ≠ 0 ∧ init_size / 8 < ULLONG_MAX))
  let alloc_size := (init_size * 8) % BASE
  match ma with
  | none => some (.LIBAPAC_OOM, none)
  | some junk =>
    let num_array := (List.range (alloc_size / 8)).map fun i => junk i % BASE
    let buf ← memset_zero num_array 0 ((init_size * 8) % BASE)
    if 0 < buf.length then
      some (.LIBAPAC_OKAY, some
        { num_array := buf.set 0 init_value, seg_alloc := init_size,
          seg_in_use := if init_value ≠ 0 then 1 else 0, is_negative := APZ_ZPOS })
    else none

/-- The function `apz_init_neg64(result, init_size, init_value)`, with `ma` as in
`apz_init_pos64`. -/
def apz_init_neg64 (chk : Bool) (ma : Option (Nat → Nat)) (init_size init_value : Nat) :
    Option (libapac_err × Option apz_t) := do
  ASSERT chk (decide (init_size ≠ 0 ∧ init_size / 8 < ULLONG_MAX))
  let alloc_size := (init_size * 8) % BASE
  match ma with
  | none => some (.LIBAPAC_OOM, none)
  | some junk =>
    let num_array := (List.range (alloc_size / 8)).map fun i => junk i % BASE
    let buf ← memset_zero num_array 0 ((init_size * 8) % BASE)
    if 0 < buf.length then
      some (.LIBAPAC_OKAY, some
        { num_array := buf.set 0 init_value, seg_alloc := init_size,
          seg_in_use := if init_value ≠ 0 then 1 else 0,
          is_negative := if APZ_NEG ≠ 0 ∧ init_value ≠ 0 then 1 else 0 })
    else none

/-- The function `apz_grow(result, new_size)`.  `ra` is the outcome of the `realloc_ptr`
call: `none` for `NULL`, `some junk` for success, the limbs beyond the old
extent then holding the indeterminate values `junk i`.  The `memset` is the
source's: it starts `seg_alloc * sizeof(u64)` limbs into the new buffer and
covers `new_size - seg_alloc` bytes. -/
def apz_grow (chk : Bool) (ra : Option (Nat → Nat)) (result : apz_t) (new_size : Nat) :
    Option (libapac_err × apz_t) := do
  ASSERT chk (decide (new_size > result.seg_alloc ∧ new_size / 8 < ULLONG_MAX))
  let temp_size := ((result.seg_alloc * 3) % BASE / 2 + 8) % BASE
  let new_size1 := if temp_size > new_size then temp_size else new_size
  match ra with
  | none => some (.LIBAPAC_OOM, result)
  | some junk =>
    let temp_mem := (List.range ((new_size1 * 8) % BASE / 8)).map fun i =>
      if i < result.num_array.length then result.num_array.getD i 0 else junk i % BASE
    let temp_mem1 ← memset_zero temp_mem (result.seg_alloc * 8) (new_size1 - result.seg_alloc)
    some (.LIBAPAC_OKAY, { result with num_array := temp_mem1, seg_alloc := new_size1 })

/-- The function `apz_reset(result)`. -/
def apz_reset (result : apz_t) : Option (libapac_err × apz_t) := do
  let buf ← memset_zero result.num_array 0 ((result.seg_alloc * 8) % BASE)
  some (.LIBAPAC_OKAY, { result with num_array := buf, seg_in_use := 0, is_negative := APZ_ZPOS })

/-- The function `apz_shrink_fit(result)`.  `ra` is the outcome of the
`realloc_ptr(num_array, sizeof(u64) * seg_in_use)` call: `none` for `NULL`,
`some junk` for success (the request may be for 0 bytes, for which a C library
may return either). -/
def apz_shrink_fit (ra : Option (Nat → Nat)) (result : apz_t) : Option (libapac_err × apz_t) :=
  match ra with
  | none => some (.LIBAPAC_OOM, result)
  | some junk =>
    let temp_mem := (List.range ((result.seg_in_use * 8) % BASE / 8)).map fun i =>
      if i < result.num_array.length then result.num_array.getD i 0 else junk i % BASE
    some (.LIBAPAC_OKAY, { result with num_array := temp_mem, seg_alloc := result.seg_in_use })

/-! ## Signed dispatch -/

/-- The scan of `apz_abs_greater` (the loop of `apz_abs_cmp`, on the buffers of
two handles): the value of `counter` at the label `is_greater_hl`. -/
def abs_greater_scan (a b : List Nat) : Nat → Option Nat
  | 0 => some 0
  | c + 1 => do
    let x ← a[c + 1]?
    let y ← b[c + 1]?
    if x ≠ y then some (c + 1) else abs_greater_scan a b c

/-- The function `apz_abs_greater(op1, op2)`; `counter = op1->seg_in_use - 1` is computed in
`u64`. -/
def apz_abs_greater (op1 op2 : apz_t) : Option Int :=
  if op1.seg_in_use > op2.seg_in_use then some 1
  else if op2.seg_in_use > op1.seg_in_use then some (-1)
  else do
    let counter ← abs_greater_scan op1.num_array op2.num_array ((op1.seg_in_use + BASE - 1) % BASE)
    let x ← op1.num_array[counter]?
    let y ← op2.num_array[counter]?
    some (if x > y then 1 else if x < y then -1 else 0)

/-- The assignment `x->num_array[i] = v`; `none` outside the buffer. -/
def apz_t.store (x : apz_t) (i v : Nat) : Option apz_t :=
  if i < x.num_array.length then some { x with num_array := x.num_array.set i v } else none

/-- The function `apz_hl_add(result, op1, op2)`, with `result` a handle distinct from the
operands.  In the source both branches of `if (!op_to_do)` are empty and
`carry` is never assigned after its initialisation to 0. -/
def apz_hl_add (chk : Bool) (ra : Option (Nat → Nat)) (result op1 op2 : apz_t) :
    Option (libapac_err × apz_t) := do
  let carry := 0
  let greater ← apz_abs_greater op1 op2
  let max_elem := if greater = -1 then op2 else op1
  let min_elem := if greater = -1 then op1 else op2
  let op_to_do := if max_elem.is_negative ≠ min_elem.is_negative then 1 else 0
  let (ret_val, result1) ←
    (if op_to_do = 0 ∧ result.seg_alloc < (max_elem.seg_in_use + 1) % BASE then
      apz_grow chk ra result ((max_elem.seg_in_use + 1) % BASE)
    else if op_to_do ≠ 0 ∧ result.seg_alloc < max_elem.seg_in_use then
      apz_grow chk ra result max_elem.seg_in_use
    else some (.LIBAPAC_OKAY, result))
  if ret_val = .LIBAPAC_OOM then some (ret_val, result1)
  else
    let (_, result2) ← apz_reset result1
    let result3 ←
      (if carry ≠ 0 then do
        let r ← result2.num_array[max_elem.seg_in_use]?
        result2.store max_elem.seg_in_use ((r + carry) % BASE)
      else some result2)
    some (ret_val, { result3 with
      is_negative := max_elem.is_negative,
      seg_in_use := (max_elem.seg_in_use + (if carry ≠ 0 then 1 else 0)) % BASE })

/-- The function `apz_hl_sub(result, op1, op2)`, with `result` a handle distinct from the
operands.  In the source both branches of `if (op_to_do)` are empty and
`borrow` is never assigned after its initialisation to 0. -/
def apz_hl_sub (chk : Bool) (ra : Option (Nat → Nat)) (result op1 op2 : apz_t) :
    Option (libapac_err × apz_t) := do
  let borrow := 0
  let greater ← apz_abs_greater op1 op2
  let max_elem := if greater = -1 then op2 else op1
  let min_elem := if greater = -1 then op1 else op2
  let op_to_do := if max_elem.is_negative ≠ min_elem.is_negative then 0 else 1
  let (ret_val, result1) ←
    (if op_to_do = 0 ∧ result.seg_alloc < (max_elem.seg_in_use + 1) % BASE then
      apz_grow chk ra result ((max_elem.seg_in_use + 1) % BASE)
    else if op_to_do ≠ 0 ∧ result.seg_alloc < max_elem.seg_in_use then
      apz_grow chk ra result max_elem.seg_in_use
    else some (.LIBAPAC_OKAY, result))
  if ret_val = .LIBAPAC_OOM then some (ret_val, result1)
  else
    let (_, result2) ← apz_reset result1
    let result3 ←
      (if borrow ≠ 0 then do
        let r ← result2.num_array[max_elem.seg_in_use]?
        result2.store max_elem.seg_in_use ((r + borrow) % BASE)
      else some result2)
    some (ret_val, { result3 with
      seg_in_use := (max_elem.seg_in_use + (if borrow ≠ 0 then 1 else 0)) % BASE,
      is_negative := if max_elem.is_negative ≠ 0 ∧ borrow ≠ 0 then 1 else 0 })

/-- The loop `for (counter = 1; counter < op1->seg_in_use; counter++)` of
`apz_hl_add_ui`: `k` iterations from `counter` on. -/
def hl_add_ui_loop (op1 : List Nat) : Nat → Nat → Nat → apz_t → Option (apz_t × Nat)
  | 0, _, carry, result => some (result, carry)
  | k + 1, counter, carry, result => do
    let a ← op1[counter]?
    let (c, s) := _addcarry_u64 carry a 0
    let result1 ← result.store counter s
    hl_add_ui_loop op1 k (counter + 1) c result1

/-- The function `apz_hl_add_ui(result, op1, value)`, with `result` a handle distinct from
`op1`. -/
def apz_hl_add_ui (chk : Bool) (ra : Option (Nat → Nat)) (result op1 : apz_t) (val : Nat) :
    Option (libapac_err × apz_t) := do
  ASSERT chk (decide (val ≠ 0))
  let (ret_val, result1) ←
    (if op1.is_negative = APZ_NEG ∧ result.seg_alloc < op1.seg_in_use then
      apz_grow chk ra result op1.seg_in_use
    else if op1.is_negative = APZ_ZPOS ∧ result.seg_alloc < (op1.seg_in_use + 1) % BASE then
      apz_grow chk ra result ((op1.seg_in_use + 1) % BASE)
    else some (.LIBAPAC_OKAY, result))
  if ret_val = .LIBAPAC_OOM then some (ret_val, result1)
  else
    let (_, result2) ← apz_reset result1
    if op1.is_negative = APZ_NEG then
      let small ← (if op1.seg_in_use = 1 then do
                    let a0 ← op1.num_array[0]?
                    some (decide (a0 < val))
                  else some false)
      if small then do
        let a0 ← op1.num_array[0]?
        let result3 ← result2.store 0 ((val + BASE - a0) % BASE)
        some (ret_val, { result3 with is_negative := APZ_ZPOS, seg_in_use := 1 })
      else do
        let a0 ← op1.num_array[0]?
        let (b0, s0) := _subborrow_u64 0 a0 val
        let result3 ← result2.store 0 s0
        let a1 ← op1.num_array[1]?
        let (_, s1) := _subborrow_u64 b0 a1 0
        let result4 ← result3.store 1 s1
        some (ret_val, { result4 with is_negative := APZ_NEG, seg_in_use := op1.seg_in_use })
    else do
      let a0 ← op1.num_array[0]?
      let (c0, s0) := _addcarry_u64 0 a0 val
      let result3 ← result2.store 0 s0
      let (result4, c) ← hl_add_ui_loop op1.num_array (op1.seg_in_use - 1) 1 c0 result3
      let result5 ← (if c ≠ 0 then result4.store op1.seg_in_use c else some result4)
      some (ret_val, { result5 with
        is_negative := APZ_ZPOS,
        seg_in_use := (op1.seg_in_use + (if c ≠ 0 then 1 else 0)) % BASE })

/-- The signed value a handle represents: the sign applied to the little-endian
value of its first `seg_in_use` limbs. -/
def apz_t.value (x : apz_t) : Int :=
  if x.is_negative = APZ_ZPOS then (lvalue (x.num_array.take x.seg_in_use) : Int)
  else - (lvalue (x.num_array.take x.seg_in_use) : Int)

/-- The normalisation invariant of a handle: no leading zero limb, and zero is
not negative. -/
def apz_t.normalised (x : apz_t) : Prop :=
  (x.seg_in_use = 0 ∨ x.num_array.getD (x.seg_in_use - 1) 0 ≠ 0) ∧
  (x.seg_in_use = 0 → x.is_negative = APZ_ZPOS)

instance (x : apz_t) : Decidable x.normalised := by
  unfold apz_t.normalised; infer_instance

/-- The destination `r` of a limb-wise loop over `p[0..n)` never overwrites a
limb of `p` that is still to be read: `r` lies in another object, or does not
start above `p` (in particular `r = p`, the in-place use), or starts beyond
`p[0..n)`. -/
def ReadSafe (r p : Ptr) (n : Nat) : Prop :=
  r.blk ≠ p.blk ∨ r.off ≤ p.off ∨ p.off + n ≤ r.off

instance (r p : Ptr) (n : Nat) : Decidable (ReadSafe r p n) := by
  unfold ReadSafe; infer_instance

/-- The slices `p[0..m)` and `q[0..n)` share no limb: they lie in different
objects, or one of them ends before the other begins. -/
def Separate (p : Ptr) (m : Nat) (q : Ptr) (n : Nat) : Prop :=
  p.blk ≠ q.blk ∨ p.off + m ≤ q.off ∨ q.off + n ≤ p.off

instance (p : Ptr) (m : Nat) (q : Ptr) (n : Nat) : Decidable (Separate p m q n) := by
  unfold Separate; infer_instance

/-- The operand of `test.c`: `LIMB_COUNT = 2` limbs, each `ULLONG_MAX`. -/
def test_a : List Nat := [2 ^ 64 - 1, 2 ^ 64 - 1]

/-- The arrays of `test.c` before the call: `a`, `b` and the zeroed `c`. -/
def test_mem : Mem := mem3 test_a test_a [0, 0, 0, 0]

/-- Two two-limb operands whose sum carries out of both limbs (object 2 is a
two-limb destination). -/
def add_mem : Mem := mem3 [2 ^ 64 - 1, 7] [1, 2 ^ 64 - 8] [0, 0]

/-- A three-limb operand (object 0) and a zeroed four-limb destination
(object 2). -/
def mul_ui_mem : Mem := mem3 [2 ^ 64 - 1, 5, 2 ^ 64 - 1] [] [0, 0, 0, 0]

/-- A zero-initialised destination handle of capacity 4, as `apz_init_pos64`
with value 0 produces it. -/
def dest4 : apz_t := ⟨[0, 0, 0, 0], 4, 0, 0⟩

/-- Four objects: `a` (object 0), `b` (object 1), `c` (object 2) and `w`
(object 3). -/
def mem4 (a b c w : List Nat) : Mem := fun blk =>
  if blk = 0 then a else if blk = 1 then b else if blk = 2 then c else if blk = 3 then w else []

/-- A call `apz_mul_karatsuba_x64(c, a, b, n, ws)` from a fresh state: the
operands are the first `n` limbs of the objects `a` and `b`, `c` is the result
array, and the workspace is either `NULL` (`ws = none`: the call allocates
object 3 itself) or the caller's array `ws` (object 3).  Returns the limbs of
`c`. -/
def karatsuba_call (chk : Bool) (arg5 : Nat → Nat) (a b c : List Nat) (n : Nat)
    (ws : Option (List Nat)) : Option (List Nat) :=
  (apz_mul_karatsuba_x64 chk arg5 (some 3)
    { mem := mem4 a b c (ws.getD []), depth := 0, alloc_ws := 0 }
    ⟨2, 0⟩ ⟨0, 0⟩ ⟨1, 0⟩ n (ws.map fun _ => ⟨3, 0⟩)).map (fun st => st.mem 2)

/-- A nine-limb operand, held in a ten-limb array. -/
def nine_a : List Nat := [1, 2, 3, 4, 5, 6, 7, 8, 9, 0]

/-- A second nine-limb operand, held in a ten-limb array. -/
def nine_b : List Nat := [11, 13, 17, 19, 23, 29, 31, 37, 41, 0]

/-- The operands `2^64` (object 0, two limbs) and `1` (object 1, one limb) and
a two-limb destination (object 2): the scenario S2 at the limb level. -/
def sub_mem : Mem := mem3 [0, 1] [1] [7, 7]

/-- An array with two leading zero limbs (object 0). -/
def trim_mem : Mem := mem3 [3, 0, 7, 0, 0] [] []

/-- The subtrahend limb at index `t` in a loop of `apz_abs_sub_x64`: `op2[t]`
in the first loop, the constant 0 in the second. -/
def sub_operand (mem : Mem) (op2 : Option Ptr) (t : Nat) : Nat :=
  match op2 with
  | some q => limb mem q t
  | none => 0

/-- The capacity `apz_hl_add` (`is_add = true`) or `apz_hl_sub`
(`is_add = false`) passes to `apz_grow`, and `none` when both capacity tests of
the source fail, so that `apz_grow` is not called; `greater` is the value
`apz_abs_greater(op1, op2)` returned. -/
def hl_grow_request (is_add : Bool) (result op1 op2 : apz_t) (greater : Int) : Option Nat :=
  let max_elem := if greater = -1 then op2 else op1
  let min_elem := if greater = -1 then op1 else op2
  let abs_add : Bool :=
    if is_add then decide (max_elem.is_negative = min_elem.is_negative)
    else decide (max_elem.is_negative ≠ min_elem.is_negative)
  if abs_add = true ∧ result.seg_alloc < (max_elem.seg_in_use + 1) % BASE then
    some ((max_elem.seg_in_use + 1) % BASE)
  else if abs_add = false ∧ result.seg_alloc < max_elem.seg_in_use then
    some max_elem.seg_in_use
  else none

/-- The capacity `apz_hl_add_ui` passes to `apz_grow`, and `none` when both
capacity tests of the source fail. -/
def hl_add_ui_grow_request (result op1 : apz_t) : Option Nat :=
  if op1.is_negative = APZ_NEG ∧ result.seg_alloc < op1.seg_in_use then some op1.seg_in_use
  else if op1.is_negative = APZ_ZPOS ∧ result.seg_alloc < (op1.seg_in_use + 1) % BASE then
    some ((op1.seg_in_use + 1) % BASE)
  else none

/-- What the capacity test of a signed operation yields: the status and handle
of `apz_grow` when it is called, `LIBAPAC_OKAY` and the untouched handle
otherwise. -/
def grow_if_requested (chk : Bool) (ra : Option (Nat → Nat)) (result : apz_t)
    (request : Option Nat) : Option (libapac_err × apz_t) :=
  match request with
  | some k => apz_grow chk ra result k
  | none => some (.LIBAPAC_OKAY, result)

/-- A three-limb operand, held in a four-limb array. -/
def three_a : List Nat := [1, 0, 2, 0]

/-- A second three-limb operand, held in a four-limb array. -/
def three_b : List Nat := [3, 0, 1, 0]

/-- Operands and a result array whose limbs are all `2^64 - 1`. -/
def chain_mem : Mem :=
  mem3 test_a test_a [2 ^ 64 - 1, 2 ^ 64 - 1, 2 ^ 64 - 1, 2 ^ 64 - 1]

/-- One object laid out like the Karatsuba workspace: two two-limb operands at
offsets 0 and 2, followed by four zero limbs for a product. -/
def slice_mem : Mem := fun blk =>
  if blk = 0 then [2 ^ 64 - 1, 2 ^ 64 - 1, 2 ^ 64 - 1, 2 ^ 64 - 1, 0, 0, 0, 0] else []

/-! # Theorems -/

/-! ## Weighted sums and memory -/

theorem BASE_pos : 0 < BASE := by unfold BASE; positivity

theorem wsum_congr {f g : Nat → Nat} : ∀ n, (∀ t, t < n → f t = g t) → wsum f n = wsum g n
  | 0, _ => rfl
  | n + 1, h => by
    simp only [wsum]
    rw [wsum_congr n (fun t ht => h t (Nat.lt_succ_of_lt ht)), h n (Nat.lt_succ_self n)]

theorem wsum_succ_bot (f : Nat → Nat) : ∀ n, wsum f (n + 1) = f 0 + BASE * wsum (fun t => f (t + 1)) n
  | 0 => by simp [wsum]
  | n + 1 => by
    have ih := wsum_succ_bot f n
    simp only [wsum] at ih ⊢
    rw [ih]; ring

theorem wsum_add (f : Nat → Nat) (m : Nat) : ∀ n, wsum f (m + n) = wsum f m + BASE ^ m * wsum (fun t => f (m + t)) n
  | 0 => by simp [wsum]
  | n + 1 => by
    have ih := wsum_add f m n
    rw [← Nat.add_assoc]
    simp only [wsum]
    rw [ih]; ring

theorem wsum_lt {f : Nat → Nat} : ∀ n, (∀ t, t < n → f t < BASE) → wsum f n < BASE ^ n
  | 0, _ => by simp [wsum]
  | n + 1, h => by
    have ih := wsum_lt n (fun t ht => h t (Nat.lt_succ_of_lt ht))
    have hn := h n (Nat.lt_succ_self n)
    simp only [wsum, pow_succ]
    nlinarith [BASE_pos]

theorem wsum_zero {f : Nat → Nat} : ∀ n, (∀ t, t < n → f t = 0) → wsum f n = 0
  | 0, _ => rfl
  | n + 1, h => by
    simp only [wsum]
    rw [wsum_zero n (fun t ht => h t (Nat.lt_succ_of_lt ht)), h n (Nat.lt_succ_self n)]; simp

theorem load_of_lt {mem : Mem} {p : Ptr} {i : Nat} (h : p.off + i < (mem p.blk).length) :
    load mem p i = some (limb mem p i) := by
  simp [load, limb, List.getD, List.getElem?_eq_getElem h]

theorem store_of_lt {mem : Mem} {p : Ptr} {i : Nat} (v : Nat) (h : p.off + i < (mem p.blk).length) :
    store mem p i v = some (mem.write p i v) := by
  simp [store, h]

theorem length_write (mem : Mem) (p : Ptr) (i v b : Nat) :
    ((mem.write p i v) b).length = (mem b).length := by
  unfold Mem.write
  split
  · next h => simp [h]
  · rfl

theorem limb_write_same {mem : Mem} {p : Ptr} {i : Nat} (v : Nat) (h : p.off + i < (mem p.blk).length) :
    limb (mem.write p i v) p i = v := by
  simp [limb, Mem.write, List.getD, List.getElem?_set, h]

theorem limb_write_of_ne {mem : Mem} {p q : Ptr} {i j : Nat} (v : Nat)
    (h : q.blk ≠ p.blk ∨ q.off + j ≠ p.off + i) :
    limb (mem.write p i v) q j = limb mem q j := by
  unfold limb Mem.write
  by_cases hb : q.blk = p.blk
  · have hne : q.off + j ≠ p.off + i := by
      rcases h with h | h
      · exact absurd hb h
      · exact h
    simp [hb, List.getD, List.getElem?_set, Ne.symm hne]
  · simp [hb]

/-! ## Absolute add -/

theorem cbit_of_le {c : Nat} (h : c ≤ 1) : cbit c = c := by
  unfold cbit; split <;> omega

theorem addcarry_spec {c a b : Nat} (hc : c ≤ 1) (ha : a < BASE) (hb : b < BASE) :
    (_addcarry_u64 c a b).1 ≤ 1 ∧ (_addcarry_u64 c a b).2 < BASE ∧
      (_addcarry_u64 c a b).2 + BASE * (_addcarry_u64 c a b).1 = a + b + c := by
  simp only [_addcarry_u64, cbit_of_le hc]
  have hB := BASE_pos
  refine ⟨?_, Nat.mod_lt _ hB, Nat.mod_add_div _ _⟩
  have : a + b + c < 2 * BASE := by omega
  have := (Nat.div_lt_iff_lt_mul hB).2 this
  omega

theorem mul_step_spec {hi c x y r : Nat} (hhc : hi + c < BASE) (hx : x < BASE) (hy : y < BASE)
    (hr : r < BASE) :
    (mul_step hi c x y r).1 + (mul_step hi c x y r).2.1 < BASE ∧
    (mul_step hi c x y r).2.2 < BASE ∧
    (mul_step hi c x y r).2.2 + BASE * ((mul_step hi c x y r).1 + (mul_step hi c x y r).2.1)
      = x * y + (hi + c) + r := by
  have hP : x * y ≤ (BASE - 1) * (BASE - 1) := Nat.mul_le_mul (by omega) (by omega)
  simp only [mul_step, _umul128, _addcarry_u64, cbit]
  generalize x * y = P at hP ⊢
  unfold BASE at *
  norm_num at *
  split <;> omega

theorem mul_ui_loop_spec (r a : Ptr) (val : Nat) (hval : val < BASE) :
    ∀ (k j hi c : Nat) (mem : Mem), hi + c < BASE →
      r.off + (j + k) ≤ (mem r.blk).length →
      a.off + (j + k) ≤ (mem a.blk).length →
      (∀ t, t < k → limb mem a (j + t) < BASE) →
      (∀ t, t < k → limb mem r (j + t) < BASE) →
      (r.blk ≠ a.blk ∨ r.off ≤ a.off ∨ a.off + (j + k) ≤ r.off) →
      ∃ mem1 hi1 c1, mul_ui_loop r a val k j hi c mem = some (mem1, hi1, c1) ∧ hi1 + c1 < BASE ∧
        (∀ blk, (mem1 blk).length = (mem blk).length) ∧
        (∀ q i, (q.blk ≠ r.blk ∨ q.off + i < r.off + j ∨ r.off + (j + k) ≤ q.off + i) →
          limb mem1 q i = limb mem q i) ∧
        (∀ t, t < k → limb mem1 r (j + t) < BASE) ∧
        wsum (fun t => limb mem1 r (j + t)) k + BASE ^ k * (hi1 + c1) =
          wsum (fun t => limb mem a (j + t)) k * val + wsum (fun t => limb mem r (j + t)) k
            + (hi + c) := by
  intro k
  induction k with
  | zero =>
    intro j hi c mem hhc _ _ _ _ _
    exact ⟨mem, hi, c, rfl, hhc, fun _ => rfl, fun _ _ _ => rfl,
      fun t ht => absurd ht (Nat.not_lt_zero t), by simp [wsum]⟩
  | succ k ih =>
    intro j hi c mem hhc hr ha hva hvr hsep
    have hla : a.off + j < (mem a.blk).length := by omega
    have hlr : r.off + j < (mem r.blk).length := by omega
    have haj : limb mem a j < BASE := by simpa using hva 0 (Nat.succ_pos k)
    have hrj : limb mem r j < BASE := by simpa using hvr 0 (Nat.succ_pos k)
    obtain ⟨h1, h2, h3⟩ := mul_step_spec hhc haj hval hrj
    generalize hms : mul_step hi c (limb mem a j) val (limb mem r j) = ms at h1 h2 h3
    obtain ⟨hn, cn, rn⟩ := ms
    simp only at h1 h2 h3
    have hfa : ∀ t, t < k → limb (mem.write r j rn) a (j + 1 + t) = limb mem a (j + 1 + t) := by
      intro t ht; apply limb_write_of_ne
      by_cases hbk : a.blk = r.blk
      · right
        rcases hsep with h | h | h
        · exact absurd hbk.symm h
        · omega
        · omega
      · exact Or.inl hbk
    have hfr : ∀ t, limb (mem.write r j rn) r (j + 1 + t) = limb mem r (j + 1 + t) :=
      fun t => limb_write_of_ne rn (Or.inr (by omega))
    have hlen1 : ∀ blk, ((mem.write r j rn) blk).length = (mem blk).length :=
      fun blk => length_write mem r j rn blk
    obtain ⟨mem2, hi2, c2, hrun, hhc2, hlen2, hframe2, hv2, hsum2⟩ :=
      ih (j + 1) hn cn (mem.write r j rn) h1
        (by rw [hlen1]; omega) (by rw [hlen1]; omega)
        (fun t ht => by
          rw [hfa t ht]; have := hva (t + 1) (by omega)
          rwa [show j + (t + 1) = j + 1 + t by omega] at this)
        (fun t ht => by
          rw [hfr t]; have := hvr (t + 1) (by omega)
          rwa [show j + (t + 1) = j + 1 + t by omega] at this)
        (by omega)
    have hri : limb mem2 r j = rn := by
      rw [hframe2 r j (Or.inr (Or.inl (by omega)))]
      exact limb_write_same rn hlr
    refine ⟨mem2, hi2, c2, ?_, hhc2, fun blk => by rw [hlen2, hlen1], ?_, ?_, ?_⟩
    · simp only [mul_ui_loop, load_of_lt hla, load_of_lt hlr, hms, store_of_lt rn hlr,
        Option.bind_eq_bind, Option.some_bind]
      exact hrun
    · intro q i hq
      rw [hframe2 q i (by omega)]
      apply limb_write_of_ne
      omega
    · intro t ht
      rcases Nat.eq_zero_or_pos t with h0 | hpos
      · subst h0; simpa [hri] using h2
      · have := hv2 (t - 1) (by omega)
        rwa [show j + 1 + (t - 1) = j + t by omega] at this
    · rw [wsum_succ_bot, wsum_succ_bot (fun t => limb mem a (j + t)),
        wsum_succ_bot (fun t => limb mem r (j + t))]
      have e1 : wsum (fun t => limb mem2 r (j + (t + 1))) k
          = wsum (fun t => limb mem2 r (j + 1 + t)) k :=
        wsum_congr k (fun t _ => by rw [show j + (t + 1) = j + 1 + t by omega])
      have e2 : wsum (fun t => limb mem a (j + (t + 1))) k
          = wsum (fun t => limb (mem.write r j rn) a (j + 1 + t)) k :=
        wsum_congr k (fun t ht => by rw [hfa t ht, show j + (t + 1) = j + 1 + t by omega])
      have e3 : wsum (fun t => limb mem r (j + (t + 1))) k
          = wsum (fun t => limb (mem.write r j rn) r (j + 1 + t)) k :=
        wsum_congr k (fun t _ => by rw [hfr t, show j + (t + 1) = j + 1 + t by omega])
      simp only [Nat.add_zero]
      rw [e1, e2, e3, hri, pow_succ]
      have h4 := congrArg (fun x => BASE * x) hsum2
      simp only [] at h4
      generalize BASE ^ k = P at h4 ⊢
      generalize wsum (fun t => limb (mem.write r j rn) a (j + 1 + t)) k = A at h4 ⊢
      generalize wsum (fun t => limb (mem.write r j rn) r (j + 1 + t)) k = R at h4 ⊢
      generalize wsum (fun t => limb mem2 r (j + 1 + t)) k = R2 at h4 ⊢
      linarith [h3, h4]

theorem value_write_of_ge {mem : Mem} {r : Ptr} {n i : Nat} (v : Nat) (h : n ≤ i) :
    value (mem.write r i v) r n = value mem r n :=
  wsum_congr n (fun t ht => limb_write_of_ne v (Or.inr (by omega)))

theorem load_add (mem : Mem) (p : Ptr) (i j : Nat) : load mem (p.add i) j = load mem p (i + j) := by
  simp [load, Ptr.add, Nat.add_assoc]

theorem write_add (mem : Mem) (p : Ptr) (i j v : Nat) :
    mem.write (p.add i) j v = mem.write p (i + j) v := by
  funext b
  simp [Mem.write, Ptr.add, Nat.add_assoc]

theorem store_add (mem : Mem) (p : Ptr) (i j v : Nat) :
    store mem (p.add i) j v = store mem p (i + j) v := by
  simp only [store, write_add]
  simp [Ptr.add, Nat.add_assoc]

theorem limb_add (mem : Mem) (p : Ptr) (i j : Nat) : limb mem (p.add i) j = limb mem p (i + j) := by
  simp [limb, Ptr.add, Nat.add_assoc]

theorem mul_step_comm (hi c x y r : Nat) : mul_step hi c x y r = mul_step hi c y x r := by
  simp [mul_step, _umul128, Nat.mul_comm]

theorem store_eq_some {mem mem1 : Mem} {p : Ptr} {i v : Nat} (h : store mem p i v = some mem1) :
    mem1 = mem.write p i v := by
  unfold store at h
  split at h
  · exact (Option.some.inj h).symm
  · exact absurd h (by simp)

theorem mul_basecase_inner_eq (r a b : Ptr) (i : Nat) :
    ∀ (k j hi c : Nat) (mem : Mem), a.off + i < (mem a.blk).length →
      (r.blk ≠ a.blk ∨ a.off + i < r.off + (i + j) ∨ r.off + (i + j + k) ≤ a.off + i) →
      mul_basecase_inner r a b i k j hi c mem
        = mul_ui_loop (r.add i) b (limb mem a i) k j hi c mem := by
  intro k
  induction k with
  | zero => intro j hi c mem _ _; rfl
  | succ k ih =>
    intro j hi c mem hla hsep
    simp only [mul_basecase_inner, mul_ui_loop, load_of_lt hla, load_add, store_add,
      Option.bind_eq_bind, Option.some_bind]
    cases hb : load mem b j with
    | none => rfl
    | some bj =>
      cases hr : load mem r (i + j) with
      | none => rfl
      | some rv =>
        simp only [Option.some_bind]
        rw [mul_step_comm hi c (limb mem a i) bj rv]
        cases hst : store mem r (i + j) (mul_step hi c bj (limb mem a i) rv).2.2 with
        | none => rfl
        | some mem1 =>
          simp only [Option.some_bind]
          have hm := store_eq_some hst
          subst hm
          rw [ih _ _ _ _ (by rw [length_write]; exact hla) (by omega),
            limb_write_of_ne _ (by omega)]

theorem mul_basecase_outer_spec (r a b : Ptr) (n : Nat) :
    ∀ (k i : Nat) (mem : Mem),
      r.off + (i + k + n) ≤ (mem r.blk).length →
      a.off + (i + k) ≤ (mem a.blk).length →
      b.off + n ≤ (mem b.blk).length →
      (∀ t, t < k → limb mem a (i + t) < BASE) →
      (∀ t, t < n → limb mem b t < BASE) →
      (∀ t, t < i + n → limb mem r t < BASE) →
      (∀ t, i + n ≤ t → t < i + k + n → limb mem r t = 0) →
      (r.blk ≠ a.blk ∨ r.off + (i + k + n) ≤ a.off + i ∨ a.off + (i + k) ≤ r.off + i) →
      (r.blk ≠ b.blk ∨ r.off + (i + k + n) ≤ b.off ∨ b.off + n ≤ r.off + i) →
      ∃ mem1, mul_basecase_outer r a b n k i mem = some mem1 ∧
        (∀ blk, (mem1 blk).length = (mem blk).length) ∧
        (∀ q j, (q.blk ≠ r.blk ∨ q.off + j < r.off + i ∨ r.off + (i + k + n) ≤ q.off + j) →
          limb mem1 q j = limb mem q j) ∧
        (∀ t, t < i + k + n → limb mem1 r t < BASE) ∧
        wsum (limb mem1 r) (i + k + n) = wsum (limb mem r) (i + n) +
          BASE ^ i * (wsum (fun t => limb mem a (i + t)) k * wsum (limb mem b) n) := by
  intro k
  induction k with
  | zero =>
    intro i mem _ _ _ _ _ hvr _ _ _
    exact ⟨mem, rfl, fun _ => rfl, fun _ _ _ => rfl, fun t ht => hvr t (by omega), by simp [wsum]⟩
  | succ k ih =>
    intro i mem hr ha hb hva hvb hvr hzr hsa hsb
    have hla : a.off + i < (mem a.blk).length := by omega
    have hai : limb mem a i < BASE := by simpa using hva 0 (Nat.succ_pos k)
    -- the row
    obtain ⟨mem1, hi1, c1, hrun, hhc, hlen1, hframe1, hvalid1, hsum1⟩ :=
      mul_ui_loop_spec (r.add i) b (limb mem a i) hai n 0 0 0 mem
        (by have := BASE_pos; omega) (by show r.off + i + (0 + n) ≤ (mem r.blk).length; omega) (by omega)
        (fun t ht => by simpa using hvb t ht)
        (fun t ht => by rw [limb_add]; exact hvr _ (by omega))
        (by show r.blk ≠ b.blk ∨ r.off + i ≤ b.off ∨ b.off + (0 + n) ≤ r.off + i; omega)
    simp only [Nat.zero_add, Nat.add_zero, limb_add] at hsum1 hvalid1
    have hframe1q : ∀ q j, (q.blk ≠ r.blk ∨ q.off + j < r.off + i ∨ r.off + (i + n) ≤ q.off + j) →
        limb mem1 q j = limb mem q j := by
      intro q j hq
      apply hframe1
      show q.blk ≠ r.blk ∨ q.off + j < r.off + i + 0 ∨ r.off + i + (0 + n) ≤ q.off + j
      omega
    have hframe1r : ∀ t, (t < i ∨ i + n ≤ t) → limb mem1 r t = limb mem r t :=
      fun t ht => hframe1q r t (by omega)
    have hrn : limb mem1 r (i + n) = 0 := by
      rw [hframe1r _ (Or.inr (Nat.le_refl _))]; exact hzr _ (Nat.le_refl _) (by omega)
    have hlr : r.off + (i + n) < (mem1 r.blk).length := by rw [show (mem1 r.blk).length = (mem r.blk).length from hlen1 _]; omega
    have hmod : (0 + (c1 + hi1) % BASE) % BASE = hi1 + c1 := by
      rw [Nat.zero_add, Nat.mod_mod, Nat.add_comm, Nat.mod_eq_of_lt hhc]
    have hlen2 : ∀ blk, ((mem1.write r (i + n) (hi1 + c1)) blk).length = (mem blk).length :=
      fun blk => by rw [length_write]; exact hlen1 blk
    have hframe2q : ∀ q j, (q.blk ≠ r.blk ∨ q.off + j < r.off + i ∨ r.off + (i + n + 1) ≤ q.off + j) →
        limb (mem1.write r (i + n) (hi1 + c1)) q j = limb mem q j := by
      intro q j hq
      rw [limb_write_of_ne _ (by omega)]
      exact hframe1q q j (by omega)
    have hframe2r : ∀ t, t ≠ i + n → limb (mem1.write r (i + n) (hi1 + c1)) r t = limb mem1 r t :=
      fun t ht => limb_write_of_ne _ (Or.inr (by omega))
    have hfa : ∀ t, t < k → limb (mem1.write r (i + n) (hi1 + c1)) a (i + 1 + t)
        = limb mem a (i + 1 + t) :=
      fun t ht => hframe2q a _ (by omega)
    have hfb : ∀ t, t < n → limb (mem1.write r (i + n) (hi1 + c1)) b t = limb mem b t :=
      fun t ht => hframe2q b _ (by omega)
    obtain ⟨mem3, hrun3, hlen3, hframe3, hvalid3, hsum3⟩ :=
      ih (i + 1) (mem1.write r (i + n) (hi1 + c1))
        (by rw [hlen2]; omega) (by rw [hlen2]; omega) (by rw [hlen2]; omega)
        (fun t ht => by
          rw [hfa t ht]
          have := hva (t + 1) (by omega)
          rwa [show i + (t + 1) = i + 1 + t by omega] at this)
        (fun t ht => by rw [hfb t ht]; exact hvb t ht)
        (fun t ht => by
          by_cases h1 : t = i + n
          · subst h1; rw [limb_write_same _ hlr]; exact hhc
          · rw [hframe2r t h1]
            by_cases h2 : t < i
            · rw [hframe1r t (Or.inl h2)]; exact hvr t (by omega)
            · have := hvalid1 (t - i) (by omega)
              rwa [show i + (t - i) = t by omega] at this)
        (fun t h1 h2 => by
          rw [hframe2r t (by omega), hframe1r t (Or.inr (by omega))]
          exact hzr t (by omega) (by omega))
        (by omega) (by omega)
    refine ⟨mem3, ?_, fun blk => by rw [hlen3, hlen2], ?_, ?_, ?_⟩
    · simp only [mul_basecase_outer, mul_basecase_inner_eq r a b i n 0 0 0 mem hla (by omega), hrun,
        load_of_lt hlr, hrn, hmod, store_of_lt _ hlr, Option.bind_eq_bind, Option.some_bind]
      exact hrun3
    · intro q j hq
      rw [hframe3 q j (by omega), hframe2q q j (by omega)]
    · intro t ht
      exact hvalid3 t (by omega)
    · have ea : wsum (fun t => limb (mem1.write r (i + n) (hi1 + c1)) a (i + 1 + t)) k
          = wsum (fun t => limb mem a (i + (t + 1))) k :=
        wsum_congr k (fun t ht => by
          rw [hfa t ht, show i + (t + 1) = i + 1 + t by omega])
      have eb : wsum (limb (mem1.write r (i + n) (hi1 + c1)) b) n = wsum (limb mem b) n :=
        wsum_congr n (fun t ht => hfb t ht)
      have er1 : wsum (limb (mem1.write r (i + n) (hi1 + c1)) r) i = wsum (limb mem r) i :=
        wsum_congr i (fun t ht => by rw [hframe2r t (by omega), hframe1r t (Or.inl ht)])
      have er2 : wsum (fun t => limb (mem1.write r (i + n) (hi1 + c1)) r (i + t)) n
          = wsum (fun t => limb mem1 r (i + t)) n :=
        wsum_congr n (fun t ht => hframe2r _ (by omega))
      have er3 : limb (mem1.write r (i + n) (hi1 + c1)) r (i + n) = hi1 + c1 :=
        limb_write_same _ hlr
      have er : wsum (limb (mem1.write r (i + n) (hi1 + c1)) r) (i + 1 + n)
          = wsum (limb mem r) (i + n) + BASE ^ i * (limb mem a i * wsum (limb mem b) n) := by
        rw [show i + 1 + n = i + (n + 1) by omega, wsum_add, wsum_add (limb mem r) i n]
        simp only [wsum]
        rw [er1, er2, er3]
        have h5 := congrArg (fun x => BASE ^ i * x) hsum1
        simp only [] at h5
        generalize wsum (fun t => limb mem1 r (i + t)) n = R1 at h5 ⊢
        generalize wsum (fun t => limb mem r (i + t)) n = R0 at h5 ⊢
        have hb' : wsum (fun t => limb mem b t) n = wsum (limb mem b) n := rfl
        rw [hb'] at h5
        generalize wsum (limb mem b) n = Bv at h5 ⊢
        generalize BASE ^ n = Pn at h5 ⊢
        generalize BASE ^ i = Pi at h5 ⊢
        linarith [h5]
      rw [show i + (k + 1) + n = i + 1 + k + n by omega, hsum3, er, ea, eb,
        wsum_succ_bot (fun t => limb mem a (i + t)), pow_succ]
      simp only [Nat.add_zero]
      ring

/-! ## Schoolbook multiply (C1) -/

/-- C1: schoolbook multiply is correct.  For an array `a` of `m` limbs, an array
`b` of `n` limbs and a result array `r` of `m + n` limbs that is all zero on
entry and overlaps neither `a` nor `b` (a different object, or a disjoint
slice of the same object, as in the Karatsuba workspace),
`apz_mul_basecase_x64(r, a, b, m, n)` returns and leaves
`value(r[0..m+n)) = value(a) * value(b)`. -/
theorem apz_mul_basecase_x64_correct (mem : Mem) (r a b : Ptr) (m n : Nat)
    (ha : IsArray mem a m) (hb : IsArray mem b n)
    (hr : r.off + (m + n) ≤ (mem r.blk).length)
    (hz : ∀ t, t < m + n → limb mem r t = 0)
    (hra : Separate r (m + n) a m) (hrb : Separate r (m + n) b n) :
    ∃ mem1, apz_mul_basecase_x64 mem r a b m n = some mem1 ∧
      value mem1 r (m + n) = value mem a m * value mem b n := by
  unfold Separate at hra hrb
  obtain ⟨mem1, hrun, _, _, _, hsum⟩ :=
    mul_basecase_outer_spec r a b n m 0 mem (by omega) (by have := ha.1; omega) hb.1
      (fun t ht => by simpa using ha.2 t ht) hb.2
      (fun t ht => by rw [hz t (by omega)]; exact BASE_pos)
      (fun t _ ht => hz t (by omega)) (by omega) (by omega)
  refine ⟨mem1, hrun, ?_⟩
  have hz0 : wsum (limb mem r) (0 + n) = 0 := wsum_zero _ (fun t ht => hz t (by omega))
  rw [hz0] at hsum
  simp only [Nat.zero_add, pow_zero, Nat.one_mul] at hsum
  exact hsum

/-- Two instances of `apz_mul_basecase_x64_correct`.  The scenario S3, with
three objects: `a = b = [2^64-1, 2^64-1]` gives `r = [1, 0, 2^64-2, 2^64-1]`.
And the same operands as slices of one object, the product going to the slice
behind them. -/
theorem apz_mul_basecase_x64_witness :
    (IsArray test_mem ⟨0, 0⟩ 2 ∧ IsArray test_mem ⟨1, 0⟩ 2 ∧
      (∀ t, t < 2 + 2 → limb test_mem ⟨2, 0⟩ t = 0) ∧
      Separate ⟨2, 0⟩ (2 + 2) ⟨0, 0⟩ 2 ∧ Separate ⟨2, 0⟩ (2 + 2) ⟨1, 0⟩ 2) ∧
    basecase_main test_a test_a = some [1, 0, 2 ^ 64 - 2, 2 ^ 64 - 1] ∧
    (∃ mem1, apz_mul_basecase_x64 test_mem ⟨2, 0⟩ ⟨0, 0⟩ ⟨1, 0⟩ 2 2 = some mem1 ∧
      value mem1 ⟨2, 0⟩ (2 + 2) = value test_mem ⟨0, 0⟩ 2 * value test_mem ⟨1, 0⟩ 2) ∧
    (IsArray slice_mem ⟨0, 0⟩ 2 ∧ IsArray slice_mem ⟨0, 2⟩ 2 ∧
      (∀ t, t < 2 + 2 → limb slice_mem ⟨0, 4⟩ t = 0) ∧
      Separate ⟨0, 4⟩ (2 + 2) ⟨0, 0⟩ 2 ∧ Separate ⟨0, 4⟩ (2 + 2) ⟨0, 2⟩ 2) ∧
    (apz_mul_basecase_x64 slice_mem ⟨0, 4⟩ ⟨0, 0⟩ ⟨0, 2⟩ 2 2).map (fun mem1 => limbs mem1 ⟨0, 0⟩ 8)
      = some [2 ^ 64 - 1, 2 ^ 64 - 1, 2 ^ 64 - 1, 2 ^ 64 - 1, 1, 0, 2 ^ 64 - 2, 2 ^ 64 - 1] ∧
    ∃ mem1, apz_mul_basecase_x64 slice_mem ⟨0, 4⟩ ⟨0, 0⟩ ⟨0, 2⟩ 2 2 = some mem1 ∧
      value mem1 ⟨0, 4⟩ (2 + 2) = value slice_mem ⟨0, 0⟩ 2 * value slice_mem ⟨0, 2⟩ 2 :=
  ⟨by decide, by decide,
   apz_mul_basecase_x64_correct test_mem ⟨2, 0⟩ ⟨0, 0⟩ ⟨1, 0⟩ 2 2 (by decide) (by decide)
     (by decide) (by decide) (by decide) (by decide),
   by decide, by decide,
   apz_mul_basecase_x64_correct slice_mem ⟨0, 4⟩ ⟨0, 0⟩ ⟨0, 2⟩ 2 2 (by decide) (by decide)
     (by decide) (by decide) (by decide) (by decide)⟩

/-! ## Karatsuba against schoolbook (C2) -/

/-- C2, at the input of `test.c` (`n = 2`, `a = b = [2^64-1, 2^64-1]`, zeroed
result, workspace allocated by the call, `KARATSUBA_THRESHOLD = 1`): the
schoolbook product is `[1, 0, 2^64-2, 2^64-1]`; the Karatsuba call aborts on
`ASSERT(borrow == 0)` in `apz_abs_sub_x64`, and with the assertions compiled
out returns `[1, 0, 2^64-2, 2^64-2]`; and whatever in-range value stands for
the argument the source leaves out of its `apz_abs_sub_x64` calls, with or
without assertions, the Karatsuba limbs are not the schoolbook limbs. -/
theorem karatsuba_test_input_diverges :
    basecase_main test_a test_a = some [1, 0, 2 ^ 64 - 2, 2 ^ 64 - 1] ∧
    test_main true id test_a test_a = none ∧
    test_main false id test_a test_a = some [1, 0, 2 ^ 64 - 2, 2 ^ 64 - 2] ∧
    ∀ k1 ∈ List.range 2, ∀ k2 ∈ List.range 3, ∀ chk : Bool,
      test_main chk (fun s => if s = 1 then k1 else k2) test_a test_a
        ≠ basecase_main test_a test_a := by
  decide

/-! ## Signed dispatch (C3 to C7) -/

/-- The handles used below are what the initialisers produce. -/
theorem init_samples :
    apz_init_pos64 true (some fun i => i + 7) 4 0 = some (.LIBAPAC_OKAY, some dest4) ∧
    apz_init_pos64 true (some fun i => i + 7) 1 (2 ^ 64 - 1)
      = some (.LIBAPAC_OKAY, some ⟨[2 ^ 64 - 1], 1, 1, 0⟩) ∧
    apz_init_pos64 true (some fun i => i + 7) 1 5 = some (.LIBAPAC_OKAY, some ⟨[5], 1, 1, 0⟩) ∧
    apz_init_neg64 true (some fun i => i + 7) 1 5 = some (.LIBAPAC_OKAY, some ⟨[5], 1, 1, 1⟩) ∧
    apz_init_neg64 true (some fun i => i + 7) 2 5
      = some (.LIBAPAC_OKAY, some ⟨[5, 0], 2, 1, 1⟩) ∧
    apz_init_pos64 true (some fun i => i + 7) 1 0 = some (.LIBAPAC_OKAY, some ⟨[0], 1, 0, 0⟩) := by
  decide

/-- C3, at the scenarios S1 and S5: `apz_hl_add` returns `LIBAPAC_OKAY` with
an all-zero result of length 1, so `(2^64-1) + 1` and `(-5) + 3` both come out
with value 0 instead of `2^64` (limbs `[0, 1]`, length 2) and `-2` (limbs
`[2]`). -/
theorem apz_hl_add_S1_S5 :
    (∀ chk : Bool, apz_hl_add chk none dest4 ⟨[2 ^ 64 - 1], 1, 1, 0⟩ ⟨[1], 1, 1, 0⟩
      = some (.LIBAPAC_OKAY, ⟨[0, 0, 0, 0], 4, 1, 0⟩)) ∧
    (⟨[0, 0, 0, 0], 4, 1, 0⟩ : apz_t).value = 0 ∧
    (⟨[2 ^ 64 - 1], 1, 1, 0⟩ : apz_t).value + (⟨[1], 1, 1, 0⟩ : apz_t).value = 2 ^ 64 ∧
    (∀ chk : Bool, apz_hl_add chk none dest4 ⟨[5], 1, 1, 1⟩ ⟨[3], 1, 1, 0⟩
      = some (.LIBAPAC_OKAY, ⟨[0, 0, 0, 0], 4, 1, 1⟩)) ∧
    (⟨[0, 0, 0, 0], 4, 1, 1⟩ : apz_t).value = 0 ∧
    (⟨[5], 1, 1, 1⟩ : apz_t).value + (⟨[3], 1, 1, 0⟩ : apz_t).value = -2 := by
  decide

/-- C4, at the scenario S2: `apz_hl_sub` on `2^64` and `1` returns
`LIBAPAC_OKAY` with an all-zero result of length 2, value 0, instead of
`2^64 - 1` (limbs `[2^64-1]`, length 1). -/
theorem apz_hl_sub_S2 :
    (∀ chk : Bool, apz_hl_sub chk none dest4 ⟨[0, 1], 2, 2, 0⟩ ⟨[1], 1, 1, 0⟩
      = some (.LIBAPAC_OKAY, ⟨[0, 0, 0, 0], 4, 2, 0⟩)) ∧
    (⟨[0, 0, 0, 0], 4, 2, 0⟩ : apz_t).value = 0 ∧
    (⟨[0, 1], 2, 2, 0⟩ : apz_t).value - (⟨[1], 1, 1, 0⟩ : apz_t).value = 2 ^ 64 - 1 := by
  decide

/-- C5, at three inputs.  `0 + 5`: the result holds the limb 5 but has
`seg_in_use = 0`, so its value is 0.  `(-7) + 5` with `op1` of capacity 1: the
read `op1->num_array[1]` is outside the buffer.  A negative three-limb `op1`:
only limbs 0 and 1 are written, while `seg_in_use` is 3. -/
theorem apz_hl_add_ui_failing_inputs :
    (∀ chk : Bool, apz_hl_add_ui chk none dest4 ⟨[0], 1, 0, 0⟩ 5
      = some (.LIBAPAC_OKAY, ⟨[5, 0, 0, 0], 4, 0, 0⟩)) ∧
    (⟨[5, 0, 0, 0], 4, 0, 0⟩ : apz_t).value = 0 ∧
    (⟨[0], 1, 0, 0⟩ : apz_t).value + 5 = 5 ∧
    (∀ chk : Bool, apz_hl_add_ui chk none dest4 ⟨[7], 1, 1, 1⟩ 5 = none) ∧
    (∀ chk : Bool, apz_hl_add_ui chk none dest4 ⟨[7, 7, 7], 3, 3, 1⟩ 5
      = some (.LIBAPAC_OKAY, ⟨[2, 7, 0, 0], 4, 3, 1⟩)) ∧
    (⟨[2, 7, 0, 0], 4, 3, 1⟩ : apz_t).value ≠ (⟨[7, 7, 7], 3, 3, 1⟩ : apz_t).value + 5 := by
  decide

/-- C6, at its two witnesses: `(+5) + (-5)` gives length 1 with top limb 0, and
`(-5) + 5` (scalar) gives length 1 with top limb 0 and the negative sign; the
normalisation invariant fails for both results. -/
theorem hl_results_not_normalised :
    (∀ chk : Bool, apz_hl_add chk none dest4 ⟨[5], 1, 1, 0⟩ ⟨[5], 1, 1, 1⟩
      = some (.LIBAPAC_OKAY, ⟨[0, 0, 0, 0], 4, 1, 0⟩)) ∧
    ¬ (⟨[0, 0, 0, 0], 4, 1, 0⟩ : apz_t).normalised ∧
    (∀ chk : Bool, apz_hl_add_ui chk none dest4 ⟨[5, 0], 2, 1, 1⟩ 5
      = some (.LIBAPAC_OKAY, ⟨[0, 0, 0, 0], 4, 1, 1⟩)) ∧
    ¬ (⟨[0, 0, 0, 0], 4, 1, 1⟩ : apz_t).normalised ∧
    (∀ chk : Bool, apz_hl_sub chk none dest4 ⟨[5], 1, 1, 0⟩ ⟨[5], 1, 1, 0⟩
      = some (.LIBAPAC_OKAY, ⟨[0, 0, 0, 0], 4, 1, 0⟩)) := by
  decide

/-- C7, at `a = +5`, `b = -5`: `apz_hl_add(r1, a, b)` leaves `r1` positive and
`apz_hl_add(r2, b, a)` leaves `r2` negative (same length, same limbs). -/
theorem apz_hl_add_not_commutative :
    (∀ chk : Bool, apz_hl_add chk none dest4 ⟨[5], 1, 1, 0⟩ ⟨[5], 1, 1, 1⟩
      = some (.LIBAPAC_OKAY, ⟨[0, 0, 0, 0], 4, 1, 0⟩)) ∧
    (∀ chk : Bool, apz_hl_add chk none dest4 ⟨[5], 1, 1, 1⟩ ⟨[5], 1, 1, 0⟩
      = some (.LIBAPAC_OKAY, ⟨[0, 0, 0, 0], 4, 1, 1⟩)) ∧
    (⟨[0, 0, 0, 0], 4, 1, 0⟩ : apz_t).is_negative ≠ (⟨[0, 0, 0, 0], 4, 1, 1⟩ : apz_t).is_negative := by
  decide

/-! ## Absolute compare (C8) -/

theorem abs_cmp_scan_spec (mem : Mem) (a b : Ptr) :
    ∀ c, a.off + c < (mem a.blk).length → b.off + c < (mem b.blk).length →
      ∃ j, abs_cmp_scan mem a b c = some j ∧ j ≤ c ∧
        (∀ t, j < t → t ≤ c → limb mem a t = limb mem b t) ∧
        (j ≠ 0 → limb mem a j ≠ limb mem b j) := by
  intro c
  induction c with
  | zero => intro _ _; exact ⟨0, rfl, Nat.le_refl 0, fun t h1 h2 => by omega, fun h => absurd rfl h⟩
  | succ c ih =>
    intro ha hb
    simp only [abs_cmp_scan, load_of_lt ha, load_of_lt hb, Option.bind_eq_bind, Option.some_bind]
    by_cases hne : limb mem a (c + 1) = limb mem b (c + 1)
    · obtain ⟨j, hj, hle, heq, hdiff⟩ := ih (by omega) (by omega)
      refine ⟨j, by simp [hne, hj], by omega, ?_, hdiff⟩
      intro t h1 h2
      rcases Nat.eq_or_lt_of_le h2 with h | h
      · rw [h]; exact hne
      · exact heq t h1 (by omega)
    · exact ⟨c + 1, by simp [hne], Nat.le_refl _, fun t h1 h2 => by omega, fun _ => hne⟩

theorem wsum_split (f : Nat → Nat) (j m : Nat) (h : j < m) :
    wsum f m = wsum f j + f j * BASE ^ j + BASE ^ (j + 1) * wsum (fun t => f (j + 1 + t)) (m - (j + 1)) := by
  have e : m = (j + 1) + (m - (j + 1)) := by omega
  conv_lhs => rw [e]
  rw [wsum_add]
  simp only [wsum]

theorem wsum_top_eq {f g : Nat → Nat} (j m : Nat)
    (h : ∀ t, j < t → t < m → f t = g t) :
    wsum (fun t => f (j + 1 + t)) (m - (j + 1)) = wsum (fun t => g (j + 1 + t)) (m - (j + 1)) :=
  wsum_congr _ (fun t ht => h _ (by omega) (by omega))

theorem wsum_lt_of_top_lt {f g : Nat → Nat} (j m : Nat) (hj : j < m)
    (hg : ∀ t, t < j → g t < BASE)
    (h : ∀ t, j < t → t < m → f t = g t) (hlt : g j < f j) : wsum g m < wsum f m := by
  rw [wsum_split f j m hj, wsum_split g j m hj, wsum_top_eq j m h]
  have h1 : wsum g j < BASE ^ j := wsum_lt j hg
  have h2 : (g j + 1) * BASE ^ j ≤ f j * BASE ^ j := Nat.mul_le_mul_right _ hlt
  have h3 : (g j + 1) * BASE ^ j = g j * BASE ^ j + BASE ^ j := by ring
  omega

theorem wsum_ge_top (f : Nat → Nat) (m : Nat) (hm : 0 < m) (h : f (m - 1) ≠ 0) :
    BASE ^ (m - 1) ≤ wsum f m := by
  obtain ⟨k, rfl⟩ : ∃ k, m = k + 1 := ⟨m - 1, by omega⟩
  simp only [wsum, Nat.add_sub_cancel] at h ⊢
  have : 1 * BASE ^ k ≤ f k * BASE ^ k := Nat.mul_le_mul_right _ (Nat.pos_of_ne_zero h)
  omega

/-- For trimmed arrays whose sizes are not both zero, `apz_abs_cmp` returns and
its value is the numeric order of the two values. -/
theorem apz_abs_cmp_order (mem : Mem) (a b : Ptr) (m n : Nat)
    (ha : IsArray mem a m) (hb : IsArray mem b n)
    (hta : m = 0 ∨ limb mem a (m - 1) ≠ 0) (htb : n = 0 ∨ limb mem b (n - 1) ≠ 0)
    (hm : m < BASE) (hsz : ¬ (m = 0 ∧ n = 0)) :
    apz_abs_cmp mem a b m n =
      some (if value mem a m > value mem b n then 1
            else if value mem a m < value mem b n then -1 else 0) := by
  have hB := BASE_pos
  unfold apz_abs_cmp
  by_cases h1 : m > n
  · have hlt : value mem b n < value mem a m := by
      have hge := wsum_ge_top (limb mem a) m (by omega) (by rcases hta with h | h; omega; exact h)
      have hblt : wsum (limb mem b) n < BASE ^ n := wsum_lt n hb.2
      have hpow : BASE ^ n ≤ BASE ^ (m - 1) := Nat.pow_le_pow_right hB (by omega)
      unfold value; omega
    simp [h1, hlt]
  · by_cases h2 : n > m
    · have hlt : value mem a m < value mem b n := by
        have hge := wsum_ge_top (limb mem b) n (by omega) (by rcases htb with h | h; omega; exact h)
        have halt : wsum (limb mem a) m < BASE ^ m := wsum_lt m ha.2
        have hpow : BASE ^ m ≤ BASE ^ (n - 1) := Nat.pow_le_pow_right hB (by omega)
        unfold value; omega
      have hnlt : ¬ value mem b n < value mem a m := by omega
      simp [h1, h2, hlt, hnlt]
    · have hmn : n = m := by omega
      subst hmn
      have hpos : 0 < n := by omega
      have hc : (n + BASE - 1) % BASE = n - 1 := by
        rw [show n + BASE - 1 = (n - 1) + BASE by omega, Nat.add_mod_right, Nat.mod_eq_of_lt (by omega)]
      obtain ⟨j, hj, hle, heq, hdiff⟩ :=
        abs_cmp_scan_spec mem a b (n - 1) (by have := ha.1; omega) (by have := hb.1; omega)
      have hja : a.off + j < (mem a.blk).length := by have := ha.1; omega
      have hjb : b.off + j < (mem b.blk).length := by have := hb.1; omega
      simp only [h1, h2, if_false, hc, hj, load_of_lt hja, load_of_lt hjb, Option.bind_eq_bind,
        Option.some_bind]
      rcases Nat.lt_trichotomy (limb mem a j) (limb mem b j) with h | h | h
      · have hv : value mem a n < value mem b n :=
          wsum_lt_of_top_lt j n (by omega) (fun t ht => ha.2 t (by omega))
            (fun t h1 h2 => (heq t h1 (by omega)).symm) h
        have h' : ¬ limb mem a j > limb mem b j := by omega
        have hv' : ¬ value mem a n > value mem b n := by omega
        simp [h, h', hv, hv']
      · have hj0 : j = 0 := by
          by_contra hne; exact hdiff hne h
        subst hj0
        have hv : value mem a n = value mem b n :=
          wsum_congr n (fun t ht => by
            rcases Nat.eq_zero_or_pos t with h0 | hp
            · rw [h0]; exact h
            · exact heq t hp (by omega))
        simp [h, hv]
      · have hv : value mem b n < value mem a n :=
          wsum_lt_of_top_lt j n (by omega) (fun t ht => hb.2 t (by omega))
            (fun t h1 h2 => heq t h1 (by omega)) h
        simp [h, hv]

/-- For trimmed arrays whose sizes are not both zero, exchanging the operands of
`apz_abs_cmp` negates the result. -/
theorem apz_abs_cmp_swap (mem : Mem) (a b : Ptr) (m n : Nat)
    (ha : IsArray mem a m) (hb : IsArray mem b n)
    (hta : m = 0 ∨ limb mem a (m - 1) ≠ 0) (htb : n = 0 ∨ limb mem b (n - 1) ≠ 0)
    (hm : m < BASE) (hn : n < BASE) (hsz : ¬ (m = 0 ∧ n = 0)) :
    ∃ c, apz_abs_cmp mem a b m n = some c ∧ apz_abs_cmp mem b a n m = some (-c) := by
  refine ⟨_, apz_abs_cmp_order mem a b m n ha hb hta htb hm hsz, ?_⟩
  rw [apz_abs_cmp_order mem b a n m hb ha htb hta hn (fun h => hsz ⟨h.2, h.1⟩)]
  rcases Nat.lt_trichotomy (value mem a m) (value mem b n) with h | h | h
  · have h1 : ¬ value mem a m > value mem b n := by omega
    simp [h, h1]
  · simp [h]
  · have h1 : ¬ value mem a m < value mem b n := by omega
    simp [h, h1]

/-- C8, at the empty sequences (`m = n = 0`, the representation of zero):
`counter = size1 - 1` wraps to `2^64 - 1` and the first read, `op1[2^64 - 1]`,
is outside the array, whether the arrays are empty objects or the one-limb
buffers of zero handles; `apz_abs_greater` does the same on two zero handles.
No value is returned.  (For sizes not both zero see `apz_abs_cmp_order`.) -/
theorem apz_abs_cmp_zero_sizes :
    apz_abs_cmp (mem3 [] [] []) ⟨0, 0⟩ ⟨1, 0⟩ 0 0 = none ∧
    apz_abs_cmp (mem3 [0] [0] []) ⟨0, 0⟩ ⟨1, 0⟩ 0 0 = none ∧
    apz_abs_greater ⟨[0], 1, 0, 0⟩ ⟨[0], 1, 0, 0⟩ = none := by
  decide

/-! ## Scalar multiply (C9) -/

/-- C9: scalar multiply is correct.  For an `n`-limb array `a`, a 64-bit `v`
and a result array `r` of `n + 1` limbs that is all zero on entry and does not
start inside `a` behind its first limb (any `r` that does not overlap `a`, in
another object or in the same one, satisfies this),
`apz_mul_ui_x64(r, a, n, v)` returns and leaves `value(r[0..n+1)) = value(a) * v`,
the final high-part carry being the limb `r[n]`. -/
theorem apz_mul_ui_x64_correct (mem : Mem) (r a : Ptr) (n v : Nat) (hv : v < BASE)
    (ha : IsArray mem a n) (hr : r.off + (n + 1) ≤ (mem r.blk).length)
    (hz : ∀ t, t < n + 1 → limb mem r t = 0) (hsep : ReadSafe r a n) :
    ∃ mem1, apz_mul_ui_x64 mem r a n v = some mem1 ∧
      value mem1 r (n + 1) = value mem a n * v ∧
      limb mem1 r n = value mem a n * v / BASE ^ n := by
  obtain ⟨mem1, hi1, c1, hrun, hhc, hlen, hframe, hvalid, hsum⟩ :=
    mul_ui_loop_spec r a v hv n 0 0 0 mem (by have := BASE_pos; omega) (by omega)
      (by have := ha.1; omega) (fun t ht => by simpa using ha.2 t ht)
      (fun t ht => by rw [Nat.zero_add, hz t (by omega)]; exact BASE_pos)
      (by unfold ReadSafe at hsep; omega)
  simp only [Nat.zero_add, Nat.add_zero] at hsum hvalid
  have hz0 : wsum (fun t => limb mem r t) n = 0 := wsum_zero n (fun t ht => hz t (by omega))
  rw [hz0, Nat.add_zero] at hsum
  have hrn : limb mem1 r n = 0 := by
    rw [hframe r n (Or.inr (Or.inr (by omega)))]; exact hz n (by omega)
  have hlr : r.off + n < (mem1 r.blk).length := by rw [hlen]; omega
  have hmod : (0 + (c1 + hi1) % BASE) % BASE = hi1 + c1 := by
    rw [Nat.zero_add, Nat.mod_mod, Nat.add_comm, Nat.mod_eq_of_lt hhc]
  have hval : value (mem1.write r n (hi1 + c1)) r (n + 1) = value mem a n * v := by
    show wsum _ n + limb _ r n * BASE ^ n = _
    have := @value_write_of_ge mem1 r n n (hi1 + c1) (Nat.le_refl n)
    unfold value at this
    rw [this, limb_write_same _ hlr]
    unfold value
    linarith [hsum]
  refine ⟨mem1.write r n (hi1 + c1), ?_, hval, ?_⟩
  · simp only [apz_mul_ui_x64, hrun, load_of_lt hlr, hrn, hmod, store_of_lt _ hlr,
      Option.bind_eq_bind, Option.some_bind]
  · rw [limb_write_same _ hlr]
    show _ = wsum (fun t => limb mem a t) n * v / BASE ^ n
    rw [← hsum]
    have hlt : wsum (fun t => limb mem1 r t) n < BASE ^ n := wsum_lt n hvalid
    have hpos : 0 < BASE ^ n := pow_pos BASE_pos n
    rw [Nat.add_comm, Nat.mul_comm, Nat.add_mul_div_right _ _ hpos, Nat.div_eq_of_lt hlt]
    simp

/-- Two instances of `apz_mul_ui_x64_correct`: a three-limb operand times
`2^64 - 1` with the result in an object of its own, and with operand and
result being disjoint slices of one object. -/
theorem apz_mul_ui_x64_witness :
    (2 ^ 64 - 1 < BASE ∧ IsArray mul_ui_mem ⟨0, 0⟩ 3 ∧
      (∀ t, t < 3 + 1 → limb mul_ui_mem ⟨2, 0⟩ t = 0) ∧ ReadSafe ⟨2, 0⟩ ⟨0, 0⟩ 3) ∧
    (∃ mem1, apz_mul_ui_x64 mul_ui_mem ⟨2, 0⟩ ⟨0, 0⟩ 3 (2 ^ 64 - 1) = some mem1 ∧
      value mem1 ⟨2, 0⟩ (3 + 1) = value mul_ui_mem ⟨0, 0⟩ 3 * (2 ^ 64 - 1) ∧
      limb mem1 ⟨2, 0⟩ 3 = value mul_ui_mem ⟨0, 0⟩ 3 * (2 ^ 64 - 1) / BASE ^ 3) ∧
    (IsArray slice_mem ⟨0, 0⟩ 3 ∧ (∀ t, t < 3 + 1 → limb slice_mem ⟨0, 4⟩ t = 0) ∧
      ReadSafe ⟨0, 4⟩ ⟨0, 0⟩ 3) ∧
    (apz_mul_ui_x64 slice_mem ⟨0, 4⟩ ⟨0, 0⟩ 3 (2 ^ 64 - 1)).map (fun mem1 => limbs mem1 ⟨0, 0⟩ 8)
      = some [2 ^ 64 - 1, 2 ^ 64 - 1, 2 ^ 64 - 1, 2 ^ 64 - 1,
          1, 2 ^ 64 - 1, 2 ^ 64 - 1, 2 ^ 64 - 2] ∧
    ∃ mem1, apz_mul_ui_x64 slice_mem ⟨0, 4⟩ ⟨0, 0⟩ 3 (2 ^ 64 - 1) = some mem1 ∧
      value mem1 ⟨0, 4⟩ (3 + 1) = value slice_mem ⟨0, 0⟩ 3 * (2 ^ 64 - 1) ∧
      limb mem1 ⟨0, 4⟩ 3 = value slice_mem ⟨0, 0⟩ 3 * (2 ^ 64 - 1) / BASE ^ 3 :=
  ⟨by decide,
   apz_mul_ui_x64_correct mul_ui_mem ⟨2, 0⟩ ⟨0, 0⟩ 3 (2 ^ 64 - 1) (by decide) (by decide)
     (by decide) (by decide) (by decide),
   by decide, by decide,
   apz_mul_ui_x64_correct slice_mem ⟨0, 4⟩ ⟨0, 0⟩ 3 (2 ^ 64 - 1) (by decide) (by decide)
     (by decide) (by decide) (by decide)⟩

/-! ## Absolute add (C10) -/

/-- C14: trim returns the trimmed length.  For an array `x` of `n` limbs,
`apz_trim(x, n)` returns some `n' ≤ n` such that either `n' = 0` and every
limb of `x[0..n)` is zero, or `n' > 0`, `x[n'-1] ≠ 0` and every limb of
`x[n'..n)` is zero; and `value(x[0..n')) = value(x[0..n))`. -/
theorem apz_trim_correct (mem : Mem) (x : Ptr) (n : Nat)
    (hx : x.off + n ≤ (mem x.blk).length) :
    ∃ n', apz_trim mem x n = some n' ∧ n' ≤ n ∧
      ((n' = 0 ∧ ∀ i, i < n → limb mem x i = 0) ∨
       (0 < n' ∧ limb mem x (n' - 1) ≠ 0 ∧ ∀ i, n' ≤ i → i < n → limb mem x i = 0)) ∧
      value mem x n' = value mem x n := by
  induction n with
  | zero => exact ⟨0, rfl, Nat.le_refl 0, Or.inl ⟨rfl, fun i hi => absurd hi (Nat.not_lt_zero i)⟩, rfl⟩
  | succ n ih =>
    have hl : x.off + n < (mem x.blk).length := by omega
    by_cases hz : limb mem x n = 0
    · obtain ⟨n', hrun, hle, hcase, hval⟩ := ih (by omega)
      refine ⟨n', ?_, by omega, ?_, ?_⟩
      · simp only [apz_trim, load_of_lt hl, hz, Option.bind_eq_bind, Option.some_bind, if_true]
        exact hrun
      · rcases hcase with ⟨h0, hall⟩ | ⟨hpos, htop, hall⟩
        · left
          refine ⟨h0, fun i hi => ?_⟩
          rcases Nat.eq_or_lt_of_le (Nat.le_of_lt_succ hi) with h | h
          · rw [h]; exact hz
          · exact hall i h
        · right
          refine ⟨hpos, htop, fun i h1 h2 => ?_⟩
          rcases Nat.eq_or_lt_of_le (Nat.le_of_lt_succ h2) with h | h
          · rw [h]; exact hz
          · exact hall i h1 h
      · rw [hval]
        show wsum (limb mem x) n = wsum (limb mem x) n + limb mem x n * BASE ^ n
        rw [hz]; simp
    · refine ⟨n + 1, ?_, Nat.le_refl _, Or.inr ⟨Nat.succ_pos n, by simpa using hz,
        fun i h1 h2 => by omega⟩, rfl⟩
      simp only [apz_trim, load_of_lt hl, hz, Option.bind_eq_bind, Option.some_bind, if_false]

/-- An instance of `apz_trim_correct`: `[3, 0, 7, 0, 0]` trims to length 3. -/
theorem apz_trim_witness :
    (0 + 5 ≤ (trim_mem 0).length ∧ apz_trim trim_mem ⟨0, 0⟩ 5 = some 3) ∧
    ∃ n', apz_trim trim_mem ⟨0, 0⟩ 5 = some n' ∧ n' ≤ 5 ∧
      ((n' = 0 ∧ ∀ i, i < 5 → limb trim_mem ⟨0, 0⟩ i = 0) ∨
       (0 < n' ∧ limb trim_mem ⟨0, 0⟩ (n' - 1) ≠ 0 ∧
         ∀ i, n' ≤ i → i < 5 → limb trim_mem ⟨0, 0⟩ i = 0)) ∧
      value trim_mem ⟨0, 0⟩ n' = value trim_mem ⟨0, 0⟩ 5 :=
  ⟨by decide, apz_trim_correct trim_mem ⟨0, 0⟩ 5 (by decide)⟩

/-! ## Absolute add-scalar (C11) and in-place negate (C13) -/

theorem abs_add_ui_loop_spec (r a : Ptr) :
    ∀ (k i carry : Nat) (mem : Mem), carry ≤ 1 →
      r.off + (i + k) ≤ (mem r.blk).length →
      a.off + (i + k) ≤ (mem a.blk).length →
      (∀ t, t < k → limb mem a (i + t) < BASE) →
      (r.blk ≠ a.blk ∨ r.off ≤ a.off ∨ a.off + (i + k) ≤ r.off) →
      ∃ mem1 c, abs_add_ui_loop r a k i carry mem = some (mem1, c) ∧ c ≤ 1 ∧
        (∀ blk, (mem1 blk).length = (mem blk).length) ∧
        (∀ q j, (q.blk ≠ r.blk ∨ q.off + j < r.off + i ∨ r.off + (i + k) ≤ q.off + j) →
          limb mem1 q j = limb mem q j) ∧
        (∀ t, t < k → limb mem1 r (i + t) < BASE) ∧
        wsum (fun t => limb mem1 r (i + t)) k + c * BASE ^ k =
          wsum (fun t => limb mem a (i + t)) k + carry := by
  intro k
  induction k with
  | zero =>
    intro i carry mem hc _ _ _ _
    exact ⟨mem, carry, rfl, hc, fun _ => rfl, fun _ _ _ => rfl,
      fun t ht => absurd ht (Nat.not_lt_zero t), by simp [wsum]⟩
  | succ k ih =>
    intro i carry mem hc hr ha hva hsa
    have hla : a.off + i < (mem a.blk).length := by omega
    have hlr : r.off + i < (mem r.blk).length := by omega
    have hai : limb mem a i < BASE := by simpa using hva 0 (Nat.succ_pos k)
    obtain ⟨hc1, hs1, hsum⟩ := addcarry_spec hc hai BASE_pos
    generalize hcs : _addcarry_u64 carry (limb mem a i) 0 = cs at hc1 hs1 hsum
    obtain ⟨c1, s⟩ := cs
    simp only at hc1 hs1 hsum
    have hfr : ∀ t, t < k → limb (mem.write r i s) a (i + 1 + t) = limb mem a (i + 1 + t) := by
      intro t ht; apply limb_write_of_ne
      by_cases hbk : a.blk = r.blk
      · right
        rcases hsa with h | h | h
        · exact absurd hbk.symm h
        · omega
        · omega
      · exact Or.inl hbk
    have hlen1 : ∀ blk, ((mem.write r i s) blk).length = (mem blk).length :=
      fun blk => length_write mem r i s blk
    obtain ⟨mem2, c2, hrun, hc2, hlen2, hframe2, hv2, hsum2⟩ :=
      ih (i + 1) c1 (mem.write r i s) hc1
        (by rw [hlen1]; omega) (by rw [hlen1]; omega)
        (fun t ht => by
          rw [hfr t ht]; have := hva (t + 1) (by omega)
          rwa [show i + (t + 1) = i + 1 + t by omega] at this)
        (by omega)
    have hri : limb mem2 r i = s := by
      rw [hframe2 r i (Or.inr (Or.inl (by omega)))]
      exact limb_write_same s hlr
    refine ⟨mem2, c2, ?_, hc2, fun blk => by rw [hlen2, hlen1], ?_, ?_, ?_⟩
    · simp only [abs_add_ui_loop, load_of_lt hla, hcs, store_of_lt s hlr,
        Option.bind_eq_bind, Option.some_bind]
      exact hrun
    · intro q j hq
      rw [hframe2 q j (by omega)]
      apply limb_write_of_ne
      omega
    · intro t ht
      rcases Nat.eq_zero_or_pos t with h0 | hpos
      · subst h0; simpa [hri] using hs1
      · have := hv2 (t - 1) (by omega)
        rwa [show i + 1 + (t - 1) = i + t by omega] at this
    · rw [wsum_succ_bot, wsum_succ_bot (fun t => limb mem a (i + t))]
      have e1 : wsum (fun t => limb mem2 r (i + (t + 1))) k
          = wsum (fun t => limb mem2 r (i + 1 + t)) k :=
        wsum_congr k (fun t _ => by rw [show i + (t + 1) = i + 1 + t by omega])
      have e2 : wsum (fun t => limb mem a (i + (t + 1))) k
          = wsum (fun t => limb (mem.write r i s) a (i + 1 + t)) k :=
        wsum_congr k (fun t ht => by rw [hfr t ht, show i + (t + 1) = i + 1 + t by omega])
      simp only [Nat.add_zero]
      rw [e1, e2, hri, pow_succ]
      have h3 := congrArg (fun x => BASE * x) hsum2
      simp only [] at h3
      generalize BASE ^ k = P at h3 ⊢
      linarith [hsum, h3]

/-- The whole of `apz_abs_add_ui_x64` on `n ≥ 1` limbs, with the facts the
callers need: result, carry, frame and the value equation. -/
theorem abs_add_ui_spec (mem : Mem) (r a : Ptr) (v n : Nat) (hn : 1 ≤ n) (hv : v < BASE)
    (ha : IsArray mem a n) (hr : r.off + n ≤ (mem r.blk).length) (hs : ReadSafe r a n) :
    ∃ mem1 c, apz_abs_add_ui_x64 mem r a v n = some (mem1, c) ∧ c ≤ 1 ∧
      (∀ blk, (mem1 blk).length = (mem blk).length) ∧
      (∀ q j, (q.blk ≠ r.blk ∨ q.off + j < r.off ∨ r.off + n ≤ q.off + j) →
        limb mem1 q j = limb mem q j) ∧
      (∀ t, t < n → limb mem1 r t < BASE) ∧
      value mem1 r n + c * BASE ^ n = value mem a n + v := by
  obtain ⟨k, rfl⟩ : ∃ k, n = k + 1 := ⟨n - 1, by omega⟩
  have hla : a.off + 0 < (mem a.blk).length := by have := ha.1; omega
  have hlr : r.off + 0 < (mem r.blk).length := by omega
  have ha0 : limb mem a 0 < BASE := ha.2 0 (Nat.succ_pos k)
  obtain ⟨hc1, hs1, hsum⟩ := addcarry_spec (Nat.zero_le 1) ha0 hv
  generalize hcs : _addcarry_u64 0 (limb mem a 0) v = cs at hc1 hs1 hsum
  obtain ⟨c1, s⟩ := cs
  simp only at hc1 hs1 hsum
  unfold ReadSafe at hs
  have hfr : ∀ t, t < k → limb (mem.write r 0 s) a (1 + t) = limb mem a (1 + t) := by
    intro t ht; apply limb_write_of_ne
    by_cases hbk : a.blk = r.blk
    · right
      rcases hs with h | h | h
      · exact absurd hbk.symm h
      · omega
      · omega
    · exact Or.inl hbk
  have hlen1 : ∀ blk, ((mem.write r 0 s) blk).length = (mem blk).length :=
    fun blk => length_write mem r 0 s blk
  obtain ⟨mem2, c2, hrun, hc2, hlen2, hframe2, hv2, hsum2⟩ :=
    abs_add_ui_loop_spec r a k 1 c1 (mem.write r 0 s) hc1
      (by rw [hlen1]; omega) (by rw [hlen1]; have := ha.1; omega)
      (fun t ht => by rw [hfr t ht]; exact ha.2 _ (by omega))
      (by omega)
  have hr0 : limb mem2 r 0 = s := by
    rw [hframe2 r 0 (Or.inr (Or.inl (by omega)))]
    exact limb_write_same s hlr
  refine ⟨mem2, c2, ?_, hc2, fun blk => by rw [hlen2, hlen1], ?_, ?_, ?_⟩
  · simp only [apz_abs_add_ui_x64, load_of_lt hla, hcs, store_of_lt s hlr,
      Option.bind_eq_bind, Option.some_bind, Nat.add_sub_cancel]
    exact hrun
  · intro q j hq
    rw [hframe2 q j (by omega)]
    apply limb_write_of_ne
    omega
  · intro t ht
    rcases Nat.eq_zero_or_pos t with h0 | hpos
    · subst h0; rw [hr0]; exact hs1
    · have := hv2 (t - 1) (by omega)
      rwa [show 1 + (t - 1) = t by omega] at this
  · unfold value
    rw [wsum_succ_bot, wsum_succ_bot (limb mem a)]
    have e1 : wsum (fun t => limb mem2 r (t + 1)) k = wsum (fun t => limb mem2 r (1 + t)) k :=
      wsum_congr k (fun t _ => by rw [Nat.add_comm])
    have e2 : wsum (fun t => limb mem a (t + 1)) k
        = wsum (fun t => limb (mem.write r 0 s) a (1 + t)) k :=
      wsum_congr k (fun t ht => by rw [hfr t ht, Nat.add_comm])
    rw [e1, e2, hr0, pow_succ]
    have h3 := congrArg (fun x => BASE * x) hsum2
    simp only [] at h3
    generalize BASE ^ k = P at h3 ⊢
    linarith [hsum, h3]

theorem compliment_loop_spec (x : Ptr) :
    ∀ (n : Nat) (mem : Mem), x.off + n ≤ (mem x.blk).length →
      ∃ mem1, compliment_loop x n mem = some mem1 ∧
        (∀ blk, (mem1 blk).length = (mem blk).length) ∧
        (∀ q j, (q.blk ≠ x.blk ∨ q.off + j < x.off ∨ x.off + n ≤ q.off + j) →
          limb mem1 q j = limb mem q j) ∧
        (∀ t, t < n → limb mem1 x t = BASE - 1 - limb mem x t % BASE) := by
  intro n
  induction n with
  | zero =>
    intro mem _
    exact ⟨mem, rfl, fun _ => rfl, fun _ _ _ => rfl, fun t ht => absurd ht (Nat.not_lt_zero t)⟩
  | succ n ih =>
    intro mem hx
    have hl : x.off + n < (mem x.blk).length := by omega
    obtain ⟨mem2, hrun, hlen2, hframe2, hv2⟩ :=
      ih (mem.write x n (BASE - 1 - limb mem x n % BASE)) (by rw [length_write]; omega)
    refine ⟨mem2, ?_, fun blk => by rw [hlen2, length_write], ?_, ?_⟩
    · simp only [compliment_loop, load_of_lt hl, store_of_lt _ hl, Option.bind_eq_bind,
        Option.some_bind]
      exact hrun
    · intro q j hq
      rw [hframe2 q j (by omega)]
      apply limb_write_of_ne
      omega
    · intro t ht
      rcases Nat.eq_or_lt_of_le (Nat.le_of_lt_succ ht) with h | h
      · subst h
        rw [hframe2 x t (Or.inr (Or.inr (Nat.le_refl _)))]
        exact limb_write_same _ hl
      · rw [hv2 t h, limb_write_of_ne _ (Or.inr (by omega))]

theorem wsum_compl (f g : Nat → Nat) :
    ∀ n, (∀ t, t < n → f t < BASE) → (∀ t, t < n → g t = BASE - 1 - f t) →
      wsum g n + wsum f n + 1 = BASE ^ n
  | 0, _, _ => by simp [wsum]
  | n + 1, hf, hg => by
    have ih := wsum_compl f g n (fun t ht => hf t (Nat.lt_succ_of_lt ht))
      (fun t ht => hg t (Nat.lt_succ_of_lt ht))
    have h1 := hf n (Nat.lt_succ_self n)
    have h2 : g n + f n + 1 = BASE := by rw [hg n (Nat.lt_succ_self n)]; omega
    simp only [wsum, pow_succ]
    have h3 := congrArg (fun z => z * BASE ^ n) h2
    simp only [] at h3
    generalize BASE ^ n = P at ih h3 ⊢
    linarith [ih, h3]

/-- C13: in-place negate is the additive inverse modulo `2^(64n)`.  For an
array `x` of `n ≥ 1` limbs, `apz_base_compliment(x, n)` returns and the new
value is `(2^(64n) - value(x)) mod 2^(64n)`. -/
theorem apz_base_compliment_correct (mem : Mem) (x : Ptr) (n : Nat) (hn : 1 ≤ n)
    (hx : IsArray mem x n) :
    ∃ mem1, apz_base_compliment mem x n = some mem1 ∧
      value mem1 x n = (BASE ^ n - value mem x n) % BASE ^ n := by
  obtain ⟨mem1, hrun1, hlen1, _, hv1⟩ := compliment_loop_spec x n mem hx.1
  have hv1' : ∀ t, t < n → limb mem1 x t = BASE - 1 - limb mem x t := fun t ht => by
    rw [hv1 t ht, Nat.mod_eq_of_lt (hx.2 t ht)]
  have harr : IsArray mem1 x n :=
    ⟨by rw [hlen1]; exact hx.1, fun t ht => by rw [hv1' t ht]; have := BASE_pos; omega⟩
  obtain ⟨mem2, c, hrun2, hc, _, _, hvalid2, hval2⟩ :=
    abs_add_ui_spec mem1 x x 1 n hn (by unfold BASE; norm_num) harr harr.1
      (Or.inr (Or.inl (Nat.le_refl _)))
  refine ⟨mem2, ?_, ?_⟩
  · simp only [apz_base_compliment, hrun1, hrun2, Option.bind_eq_bind, Option.some_bind]
  · have hcompl := wsum_compl (limb mem x) (limb mem1 x) n hx.2 hv1'
    have hlt2 : value mem2 x n < BASE ^ n := wsum_lt n hvalid2
    have hlt0 : value mem x n < BASE ^ n := wsum_lt n hx.2
    unfold value at *
    generalize wsum (limb mem2 x) n = V2 at *
    generalize wsum (limb mem1 x) n = V1 at *
    generalize wsum (limb mem x) n = V0 at *
    generalize BASE ^ n = P at *
    rcases Nat.eq_zero_or_pos V0 with h0 | hpos
    · subst h0
      have hc1 : c = 1 := by
        rcases Nat.eq_zero_or_pos c with h | h
        · subst h; omega
        · omega
      subst hc1
      simp only [Nat.sub_zero, Nat.mod_self]
      omega
    · have hc0 : c = 0 := by
        rcases Nat.eq_zero_or_pos c with h | h
        · exact h
        · have : c = 1 := by omega
          subst this; omega
      subst hc0
      rw [Nat.mod_eq_of_lt (by omega)]
      omega

/-- An instance of `apz_base_compliment_correct`: complementing
`[2^64-1, 7]` in place gives `[1, 2^64-8]`. -/
theorem apz_base_compliment_witness :
    (1 ≤ 2 ∧ IsArray add_mem ⟨0, 0⟩ 2 ∧
      (apz_base_compliment add_mem ⟨0, 0⟩ 2).map (fun m => m 0) = some [1, 2 ^ 64 - 8]) ∧
    ∃ mem1, apz_base_compliment add_mem ⟨0, 0⟩ 2 = some mem1 ∧
      value mem1 ⟨0, 0⟩ 2 = (BASE ^ 2 - value add_mem ⟨0, 0⟩ 2) % BASE ^ 2 :=
  ⟨by decide, apz_base_compliment_correct add_mem ⟨0, 0⟩ 2 (by decide) (by decide)⟩

/-! ## Absolute subtract (C12) -/

theorem subborrow_spec {c a b : Nat} (hc : c ≤ 1) (ha : a < BASE) (hb : b < BASE) :
    (_subborrow_u64 c a b).1 ≤ 1 ∧ (_subborrow_u64 c a b).2 < BASE ∧
      (_subborrow_u64 c a b).2 + b + c = a + (_subborrow_u64 c a b).1 * BASE := by
  have hB := BASE_pos
  simp only [_subborrow_u64, cbit_of_le hc]
  split
  · next h =>
    refine ⟨Nat.le_refl 1, Nat.mod_lt _ hB, ?_⟩
    rw [Nat.mod_eq_of_lt (by omega)]
    simp only []
    omega
  · next h =>
    refine ⟨Nat.zero_le 1, Nat.mod_lt _ hB, ?_⟩
    rw [Nat.mod_eq_of_lt (by omega)]
    simp only []
    omega

theorem abs_sub_loop_spec (r a : Ptr) (op2 : Option Ptr) :
    ∀ (k i borrow : Nat) (mem : Mem), borrow ≤ 1 →
      r.off + (i + k) ≤ (mem r.blk).length →
      a.off + (i + k) ≤ (mem a.blk).length →
      (∀ q, op2 = some q → q.off + (i + k) ≤ (mem q.blk).length ∧
        (r.blk ≠ q.blk ∨ r.off ≤ q.off ∨ q.off + (i + k) ≤ r.off)) →
      (∀ t, t < k → limb mem a (i + t) < BASE) →
      (∀ t, t < k → sub_operand mem op2 (i + t) < BASE) →
      (r.blk ≠ a.blk ∨ r.off ≤ a.off ∨ a.off + (i + k) ≤ r.off) →
      ∃ mem1 c, abs_sub_loop r a op2 k i borrow mem = some (mem1, c) ∧ c ≤ 1 ∧
        (∀ blk, (mem1 blk).length = (mem blk).length) ∧
        (∀ q j, (q.blk ≠ r.blk ∨ q.off + j < r.off + i ∨ r.off + (i + k) ≤ q.off + j) →
          limb mem1 q j = limb mem q j) ∧
        (∀ t, t < k → limb mem1 r (i + t) < BASE) ∧
        wsum (fun t => limb mem1 r (i + t)) k + wsum (fun t => sub_operand mem op2 (i + t)) k
            + borrow =
          wsum (fun t => limb mem a (i + t)) k + c * BASE ^ k := by
  intro k
  induction k with
  | zero =>
    intro i borrow mem hc _ _ _ _ _ _
    exact ⟨mem, borrow, rfl, hc, fun _ => rfl, fun _ _ _ => rfl,
      fun t ht => absurd ht (Nat.not_lt_zero t), by simp [wsum]⟩
  | succ k ih =>
    intro i borrow mem hc hr ha hq hva hvb hsa
    have hla : a.off + i < (mem a.blk).length := by omega
    have hlr : r.off + i < (mem r.blk).length := by omega
    have hai : limb mem a i < BASE := by simpa using hva 0 (Nat.succ_pos k)
    have hbi : sub_operand mem op2 i < BASE := by simpa using hvb 0 (Nat.succ_pos k)
    obtain ⟨hc1, hs1, hsum⟩ := subborrow_spec hc hai hbi
    generalize hcs : _subborrow_u64 borrow (limb mem a i) (sub_operand mem op2 i) = cs
      at hc1 hs1 hsum
    obtain ⟨c1, s⟩ := cs
    simp only at hc1 hs1 hsum
    have hfr : ∀ t, t < k → limb (mem.write r i s) a (i + 1 + t) = limb mem a (i + 1 + t) := by
      intro t ht; apply limb_write_of_ne
      by_cases hbk : a.blk = r.blk
      · right
        rcases hsa with h | h | h
        · exact absurd hbk.symm h
        · omega
        · omega
      · exact Or.inl hbk
    have hfb : ∀ t, t < k →
        sub_operand (mem.write r i s) op2 (i + 1 + t) = sub_operand mem op2 (i + 1 + t) := by
      intro t ht
      cases op2 with
      | none => rfl
      | some q =>
        have hq2 := (hq q rfl).2
        show limb (mem.write r i s) q (i + 1 + t) = limb mem q (i + 1 + t)
        apply limb_write_of_ne
        by_cases hbk : q.blk = r.blk
        · right
          rcases hq2 with h | h | h
          · exact absurd hbk.symm h
          · omega
          · omega
        · exact Or.inl hbk
    have hlen1 : ∀ blk, ((mem.write r i s) blk).length = (mem blk).length :=
      fun blk => length_write mem r i s blk
    obtain ⟨mem2, c2, hrun, hc2, hlen2, hframe2, hv2, hsum2⟩ :=
      ih (i + 1) c1 (mem.write r i s) hc1
        (by rw [hlen1]; omega) (by rw [hlen1]; omega)
        (fun q hqe => by
          obtain ⟨h1, h2⟩ := hq q hqe
          exact ⟨by rw [hlen1]; omega, by omega⟩)
        (fun t ht => by
          rw [hfr t ht]; have := hva (t + 1) (by omega)
          rwa [show i + (t + 1) = i + 1 + t by omega] at this)
        (fun t ht => by
          rw [hfb t ht]; have := hvb (t + 1) (by omega)
          rwa [show i + (t + 1) = i + 1 + t by omega] at this)
        (by omega)
    have hri : limb mem2 r i = s := by
      rw [hframe2 r i (Or.inr (Or.inl (by omega)))]
      exact limb_write_same s hlr
    refine ⟨mem2, c2, ?_, hc2, fun blk => by rw [hlen2, hlen1], ?_, ?_, ?_⟩
    · cases op2 with
      | none =>
        have hcs' : _subborrow_u64 borrow (limb mem a i) 0 = (c1, s) := hcs
        simp only [abs_sub_loop, load_of_lt hla, hcs', store_of_lt s hlr,
          Option.bind_eq_bind, Option.some_bind]
        exact hrun
      | some q =>
        have hlq : q.off + i < (mem q.blk).length := by have := (hq q rfl).1; omega
        have hcs' : _subborrow_u64 borrow (limb mem a i) (limb mem q i) = (c1, s) := hcs
        simp only [abs_sub_loop, load_of_lt hla, load_of_lt hlq, hcs', store_of_lt s hlr,
          Option.bind_eq_bind, Option.some_bind]
        exact hrun
    · intro q j hq'
      rw [hframe2 q j (by omega)]
      apply limb_write_of_ne
      omega
    · intro t ht
      rcases Nat.eq_zero_or_pos t with h0 | hpos
      · subst h0; simpa [hri] using hs1
      · have := hv2 (t - 1) (by omega)
        rwa [show i + 1 + (t - 1) = i + t by omega] at this
    · rw [wsum_succ_bot, wsum_succ_bot (fun t => limb mem a (i + t)),
        wsum_succ_bot (fun t => sub_operand mem op2 (i + t))]
      have e1 : wsum (fun t => limb mem2 r (i + (t + 1))) k
          = wsum (fun t => limb mem2 r (i + 1 + t)) k :=
        wsum_congr k (fun t _ => by rw [show i + (t + 1) = i + 1 + t by omega])
      have e2 : wsum (fun t => limb mem a (i + (t + 1))) k
          = wsum (fun t => limb (mem.write r i s) a (i + 1 + t)) k :=
        wsum_congr k (fun t ht => by rw [hfr t ht, show i + (t + 1) = i + 1 + t by omega])
      have e3 : wsum (fun t => sub_operand mem op2 (i + (t + 1))) k
          = wsum (fun t => sub_operand (mem.write r i s) op2 (i + 1 + t)) k :=
        wsum_congr k (fun t ht => by rw [hfb t ht, show i + (t + 1) = i + 1 + t by omega])
      simp only [Nat.add_zero]
      rw [e1, e2, e3, hri, pow_succ]
      have h3 := congrArg (fun x => BASE * x) hsum2
      simp only [] at h3
      generalize BASE ^ k = P at h3 ⊢
      linarith [hsum, h3]

/-- C12: absolute subtract is correct under its precondition.  For an array `a`
of `m` limbs and an array `b` of `n ≤ m` limbs with `value(a) ≥ value(b)`, and
a destination `r` of `m` limbs (a separate array, or an operand used in place),
`apz_abs_sub_x64(r, a, b, m, n)` returns, with the assertions active as well
(so neither `ASSERT(op1_size >= op2_size)` nor the final `ASSERT(borrow == 0)`
fires), and leaves `value(r[0..m)) = value(a) - value(b)`. -/
theorem apz_abs_sub_x64_correct (chk : Bool) (mem : Mem) (r a b : Ptr) (m n : Nat)
    (hmn : n ≤ m) (ha : IsArray mem a m) (hb : IsArray mem b n)
    (hr : r.off + m ≤ (mem r.blk).length) (hsa : ReadSafe r a m) (hsb : ReadSafe r b n)
    (hge : value mem b n ≤ value mem a m) :
    ∃ mem1, apz_abs_sub_x64 chk mem r a b m n = some mem1 ∧
      value mem1 r m = value mem a m - value mem b n := by
  unfold ReadSafe at hsa hsb
  obtain ⟨mem1, b1, hrun1, hb1, hlen1, hframe1, hvalid1, hsum1⟩ :=
    abs_sub_loop_spec r a (some b) n 0 0 mem (Nat.zero_le 1) (by omega)
      (by have := ha.1; omega)
      (fun q hq => by
        cases hq
        exact ⟨by have := hb.1; omega, by omega⟩)
      (fun t ht => by simpa using ha.2 t (by omega))
      (fun t ht => by simpa [sub_operand] using hb.2 t ht)
      (by omega)
  simp only [Nat.zero_add, Nat.add_zero, sub_operand] at hsum1 hvalid1
  have hfa : ∀ t, t < m - n → limb mem1 a (n + t) = limb mem a (n + t) := by
    intro t ht
    apply hframe1
    by_cases hbk : a.blk = r.blk
    · right
      rcases hsa with h | h | h
      · exact absurd hbk.symm h
      · right; omega
      · left; omega
    · exact Or.inl hbk
  obtain ⟨mem2, b2, hrun2, hb2, hlen2, hframe2, hvalid2, hsum2⟩ :=
    abs_sub_loop_spec r a none (m - n) n b1 mem1 hb1
      (by rw [hlen1]; omega) (by rw [hlen1]; have := ha.1; omega)
      (fun q hq => by cases hq)
      (fun t ht => by rw [hfa t ht]; exact ha.2 _ (by omega))
      (fun t _ => by simpa [sub_operand] using BASE_pos)
      (by omega)
  simp only [sub_operand] at hsum2
  have hz : wsum (fun _ => 0) (m - n) = 0 := wsum_zero _ (fun _ _ => rfl)
  rw [hz, Nat.add_zero] at hsum2
  have hlow : wsum (limb mem2 r) n = wsum (limb mem1 r) n :=
    wsum_congr n (fun t ht => hframe2 r t (Or.inr (Or.inl (by omega))))
  have hvalid : ∀ t, t < m → limb mem2 r t < BASE := by
    intro t ht
    by_cases h : t < n
    · rw [hframe2 r t (Or.inr (Or.inl (by omega)))]; exact hvalid1 t h
    · have := hvalid2 (t - n) (by omega)
      rwa [show n + (t - n) = t by omega] at this
  have hltr : wsum (limb mem2 r) m < BASE ^ m := wsum_lt m hvalid
  have hrm : wsum (limb mem2 r) m
      = wsum (limb mem2 r) n + BASE ^ n * wsum (fun t => limb mem2 r (n + t)) (m - n) := by
    conv_lhs => rw [show m = n + (m - n) by omega]
    rw [wsum_add]
  have ham : wsum (limb mem a) m
      = wsum (limb mem a) n + BASE ^ n * wsum (fun t => limb mem1 a (n + t)) (m - n) := by
    conv_lhs => rw [show m = n + (m - n) by omega]
    rw [wsum_add, wsum_congr (m - n) (fun t ht => (hfa t ht).symm)]
  have hpow : BASE ^ m = BASE ^ n * BASE ^ (m - n) := by
    rw [← pow_add, show n + (m - n) = m by omega]
  have htot : wsum (limb mem2 r) m + wsum (limb mem b) n
      = wsum (limb mem a) m + b2 * BASE ^ m := by
    rw [hrm, ham, hlow, hpow]
    have h3 := congrArg (fun x => BASE ^ n * x) hsum2
    simp only [] at h3
    generalize wsum (fun t => limb mem2 r (n + t)) (m - n) = R2 at h3 ⊢
    generalize wsum (fun t => limb mem1 a (n + t)) (m - n) = A2 at h3 ⊢
    generalize BASE ^ (m - n) = Q at h3 ⊢
    generalize BASE ^ n = P at h3 hsum1 ⊢
    linarith [hsum1, h3]
  unfold value at hge ⊢
  have hb20 : b2 = 0 := by
    rcases Nat.eq_zero_or_pos b2 with h | h
    · exact h
    · have : b2 = 1 := by omega
      subst this; omega
  subst hb20
  refine ⟨mem2, ?_, by omega⟩
  simp [apz_abs_sub_x64, ASSERT, hmn, hrun1, hrun2]

/-- The scenario S2 at the limb level as an instance of
`apz_abs_sub_x64_correct`: `2^64 - 1` gives the limbs `[2^64-1, 0]`. -/
theorem apz_abs_sub_x64_witness :
    (1 ≤ 2 ∧ IsArray sub_mem ⟨0, 0⟩ 2 ∧ IsArray sub_mem ⟨1, 0⟩ 1 ∧
      ReadSafe ⟨2, 0⟩ ⟨0, 0⟩ 2 ∧ ReadSafe ⟨2, 0⟩ ⟨1, 0⟩ 1 ∧
      value sub_mem ⟨1, 0⟩ 1 ≤ value sub_mem ⟨0, 0⟩ 2 ∧
      (apz_abs_sub_x64 true sub_mem ⟨2, 0⟩ ⟨0, 0⟩ ⟨1, 0⟩ 2 1).map (fun m => m 2)
        = some [2 ^ 64 - 1, 0]) ∧
    ∃ mem1, apz_abs_sub_x64 true sub_mem ⟨2, 0⟩ ⟨0, 0⟩ ⟨1, 0⟩ 2 1 = some mem1 ∧
      value mem1 ⟨2, 0⟩ 2 = value sub_mem ⟨0, 0⟩ 2 - value sub_mem ⟨1, 0⟩ 1 :=
  ⟨by decide,
   apz_abs_sub_x64_correct true sub_mem ⟨2, 0⟩ ⟨0, 0⟩ ⟨1, 0⟩ 2 1 (by decide) (by decide)
     (by decide) (by decide) (by decide) (by decide) (by decide)⟩

/-! ## The container: initialisation, grow, shrink (C15 to C18) -/

theorem memset_zero_length {buf b : List Nat} {off nb : Nat}
    (h : memset_zero buf off nb = some b) : b.length = buf.length := by
  unfold memset_zero at h
  split at h
  · cases h; rfl
  · split at h
    · cases h; simp
    · cases h

theorem memset_zero_getD_lt {buf b : List Nat} {off nb : Nat}
    (h : memset_zero buf off nb = some b) (i : Nat) (hi : i < off) :
    b.getD i 0 = buf.getD i 0 := by
  unfold memset_zero at h
  split at h
  · cases h; rfl
  · split at h
    · cases h
      simp only [List.getD_eq_getElem?_getD, List.getElem?_mapIdx]
      cases hb : buf[i]? with
      | none => rfl
      | some v =>
        have h1 : ¬ (off ≤ i ∧ i < off + nb / 8) := by omega
        have h2 : ¬ (i = off + nb / 8) := by omega
        simp [h1, h2]
    · cases h

theorem memset_zero_whole {buf : List Nat} {n : Nat} (h : n ≤ buf.length) :
    ∃ b, memset_zero buf 0 (n * 8) = some b ∧ b.length = buf.length ∧
      (∀ i, i < n → b.getD i 0 = 0) := by
  unfold memset_zero
  split
  · next h0 => exact ⟨buf, rfl, rfl, fun i hi => by omega⟩
  · next h0 =>
    rw [if_pos (by omega)]
    refine ⟨_, rfl, by simp, fun i hi => ?_⟩
    simp only [List.getD_eq_getElem?_getD, List.getElem?_mapIdx]
    have hlt : i < buf.length := by omega
    rw [List.getElem?_eq_getElem hlt]
    have h1 : i < n * 8 / 8 := by omega
    simp only [Nat.zero_le, true_and, Nat.zero_add, Option.map_some', Option.getD_some, h1,
      if_true]

/-- A `memset` over a whole buffer leaves zeros only. -/
theorem memset_zero_all (buf : List Nat) :
    memset_zero buf 0 (buf.length * 8) = some (List.replicate buf.length 0) := by
  unfold memset_zero
  split
  · next h0 =>
    have hl : buf.length = 0 := by omega
    have hb : buf = [] := List.length_eq_zero.mp hl
    subst hb; rfl
  · next h0 =>
    rw [if_pos (by omega)]
    congr 1
    apply List.ext_getElem?
    intro i
    simp only [List.getElem?_mapIdx, List.getElem?_replicate]
    by_cases hi : i < buf.length
    · have h1 : i < buf.length * 8 / 8 := by omega
      simp [hi, h1, List.getElem?_eq_getElem hi]
    · simp [hi, List.getElem?_eq_none (Nat.le_of_not_lt hi)]

theorem set_zero_replicate (c v : Nat) (hc : 1 ≤ c) :
    (List.replicate c 0).set 0 v = v :: List.replicate (c - 1) 0 := by
  obtain ⟨k, rfl⟩ : ∃ k, c = k + 1 := ⟨c - 1, by omega⟩
  simp [List.replicate_succ]

/-- The initialisers on a capacity whose byte count fits `size_t`: with any
contents of the fresh buffer, both return `LIBAPAC_OKAY` and a handle with
`seg_alloc = c` and the `c` limbs `v, 0, ..., 0`; `seg_in_use` is 1 for `v ≠ 0`
and 0 for `v = 0`; `is_negative` is `APZ_ZPOS`, except `APZ_NEG` from
`apz_init_neg64` with `v ≠ 0`.  When `malloc_ptr` fails both return
`LIBAPAC_OOM` and no handle. -/
theorem apz_init_correct (chk : Bool) (junk : Nat → Nat) (c v : Nat) (hc : 1 ≤ c)
    (hc8 : c * 8 < BASE) :
    apz_init_pos64 chk (some junk) c v = some (.LIBAPAC_OKAY, some
      ⟨v :: List.replicate (c - 1) 0, c, if v ≠ 0 then 1 else 0, APZ_ZPOS⟩) ∧
    apz_init_neg64 chk (some junk) c v = some (.LIBAPAC_OKAY, some
      ⟨v :: List.replicate (c - 1) 0, c, if v ≠ 0 then 1 else 0,
        if v ≠ 0 then APZ_NEG else APZ_ZPOS⟩) ∧
    apz_init_pos64 chk none c v = some (.LIBAPAC_OOM, none) ∧
    apz_init_neg64 chk none c v = some (.LIBAPAC_OOM, none) := by
  have hassert : ASSERT chk (decide (c ≠ 0 ∧ c / 8 < ULLONG_MAX)) = some () := by
    have h1 : c ≠ 0 ∧ c / 8 < ULLONG_MAX := by
      unfold ULLONG_MAX; unfold BASE at hc8; omega
    simp [ASSERT, h1]
  have hmod : c * 8 % BASE = c * 8 := Nat.mod_eq_of_lt hc8
  have hdiv : c * 8 / 8 = c := by omega
  have hlen : ((List.range c).map fun i => junk i % BASE).length = c := by simp
  have hm := memset_zero_all ((List.range c).map fun i => junk i % BASE)
  rw [hlen] at hm
  have hpos : 0 < (List.replicate c 0).length := by simp; omega
  refine ⟨?_, ?_, ?_, ?_⟩
  · simp only [apz_init_pos64, hassert, hmod, hdiv, hm, hpos, set_zero_replicate c v hc,
      Option.bind_eq_bind, Option.some_bind, if_true]
  · simp only [apz_init_neg64, hassert, hmod, hdiv, hm, hpos, set_zero_replicate c v hc,
      Option.bind_eq_bind, Option.some_bind, if_true]
    by_cases hv : v = 0 <;> simp [hv, APZ_NEG, APZ_ZPOS]
  · simp only [apz_init_pos64, hassert, Option.bind_eq_bind, Option.some_bind]
  · simp only [apz_init_neg64, hassert, Option.bind_eq_bind, Option.some_bind]

/-- An instance of `apz_init_correct`: capacity 2, value 5 and value 0, the
fresh buffer holding the limbs 7 and 8. -/
theorem apz_init_witness :
    (1 ≤ 2 ∧ 2 * 8 < BASE) ∧
    (apz_init_pos64 true (some fun i => i + 7) 2 5 = some (.LIBAPAC_OKAY, some ⟨[5, 0], 2, 1, 0⟩) ∧
      apz_init_neg64 true (some fun i => i + 7) 2 5 = some (.LIBAPAC_OKAY, some ⟨[5, 0], 2, 1, 1⟩)) ∧
    (apz_init_pos64 true (some fun i => i + 7) 2 0 = some (.LIBAPAC_OKAY, some ⟨[0, 0], 2, 0, 0⟩) ∧
      apz_init_neg64 true (some fun i => i + 7) 2 0 = some (.LIBAPAC_OKAY, some ⟨[0, 0], 2, 0, 0⟩)) :=
  ⟨by decide,
   ⟨(apz_init_correct true (fun i => i + 7) 2 5 (by decide) (by decide)).1,
    (apz_init_correct true (fun i => i + 7) 2 5 (by decide) (by decide)).2.1⟩,
   ⟨(apz_init_correct true (fun i => i + 7) 2 0 (by decide) (by decide)).1,
    (apz_init_correct true (fun i => i + 7) 2 0 (by decide) (by decide)).2.1⟩⟩

/-- C15, at the capacity `c = 2^61 + 1` (and `c = 2^61`).  The guard
`ASSERT((init_size >> 3) < ULLONG_MAX)` holds for every `size_t`, so it lets
these capacities through; `alloc_size = init_size << 3` wraps to 8 bytes, and
so does the byte count of the `memset`.  With `malloc_ptr` successful, both
initialisers return `LIBAPAC_OKAY` and a handle with `seg_alloc = 2^61 + 1`
whose buffer has one limb: the limbs `1, ..., c - 1` that the claim says are
zero do not exist.  At `c = 2^61` the request is for 0 bytes and the store to
`num_array[0]` is outside the buffer. -/
theorem apz_init_capacity_wraps :
    (∀ chk, ASSERT chk (decide (2 ^ 61 + 1 ≠ 0 ∧ (2 ^ 61 + 1) / 8 < ULLONG_MAX)) = some ()) ∧
    ((2 ^ 61 + 1) * 8) % BASE = 8 ∧
    (∀ chk junk, apz_init_pos64 chk (some junk) (2 ^ 61 + 1) 5
      = some (.LIBAPAC_OKAY, some ⟨[5], 2 ^ 61 + 1, 1, 0⟩)) ∧
    (∀ chk junk, apz_init_neg64 chk (some junk) (2 ^ 61 + 1) 5
      = some (.LIBAPAC_OKAY, some ⟨[5], 2 ^ 61 + 1, 1, 1⟩)) ∧
    (∀ chk junk, apz_init_pos64 chk (some junk) (2 ^ 61) 5 = none) ∧
    (∀ chk junk, apz_init_neg64 chk (some junk) (2 ^ 61) 5 = none) := by
  have hassert : ∀ chk, ASSERT chk (decide (2 ^ 61 + 1 ≠ 0 ∧ (2 ^ 61 + 1) / 8 < ULLONG_MAX))
      = some () := by
    intro chk; cases chk <;> decide
  have hassert0 : ∀ chk, ASSERT chk (decide (2 ^ 61 ≠ 0 ∧ 2 ^ 61 / 8 < ULLONG_MAX))
      = some () := by
    intro chk; cases chk <;> decide
  have h8 : ((2 ^ 61 + 1) * 8) % BASE = 8 := by decide
  have h0 : (2 ^ 61 * 8) % BASE = 0 := by decide
  have hm : ∀ x, memset_zero [x] 0 8 = some [0] := by
    intro x; simp [memset_zero]
  refine ⟨hassert, h8, ?_, ?_, ?_, ?_⟩
  · intro chk junk
    simp only [apz_init_pos64, hassert, h8, Option.bind_eq_bind, Option.some_bind]
    simp [List.range_succ, hm, APZ_ZPOS]
  · intro chk junk
    simp only [apz_init_neg64, hassert, h8, Option.bind_eq_bind, Option.some_bind]
    simp [List.range_succ, hm, APZ_NEG]
  · intro chk junk
    simp only [apz_init_pos64, hassert0, h0, Option.bind_eq_bind, Option.some_bind]
    simp [memset_zero]
  · intro chk junk
    simp only [apz_init_neg64, hassert0, h0, Option.bind_eq_bind, Option.some_bind]
    simp [memset_zero]

/-- C16 (as stated, at capacity 2 and `new_capacity = 2` or `1`): with the
assertions active `apz_grow` stops at `ASSERT(new_size > result->seg_alloc)`
and returns no status; with the assertions compiled out it is not a no-op
either: from capacity 1 it reallocates to 9 limbs. -/
theorem apz_grow_sufficient_capacity :
    apz_grow true (some fun _ => 0) ⟨[5, 0], 2, 1, 0⟩ 2 = none ∧
    apz_grow true none ⟨[5, 0], 2, 1, 0⟩ 1 = none ∧
    apz_grow false (some fun _ => 0) ⟨[5], 1, 1, 0⟩ 1
      = some (.LIBAPAC_OKAY, ⟨[5, 0, 0, 0, 0, 0, 0, 0, 0], 9, 1, 0⟩) := by
  decide

/-- C16 (amended): `apz_grow` has the precondition `new_capacity > seg_alloc`.
Called with `seg_alloc ≥ new_capacity` it stops at
`ASSERT(new_size > result->seg_alloc)`: no status is returned and the bignum is
not modified. -/
theorem apz_grow_precondition (ra : Option (Nat → Nat)) (x : apz_t) (n : Nat)
    (h : n ≤ x.seg_alloc) : apz_grow true ra x n = none := by
  have h1 : ¬ (n > x.seg_alloc ∧ n / 8 < ULLONG_MAX) := by omega
  simp [apz_grow, ASSERT, h1]

/-- An instance of `apz_grow_precondition`. -/
theorem apz_grow_precondition_witness :
    2 ≤ (⟨[5, 0], 2, 1, 0⟩ : apz_t).seg_alloc ∧
    apz_grow true none ⟨[5, 0], 2, 1, 0⟩ 2 = none :=
  ⟨by decide, apz_grow_precondition none ⟨[5, 0], 2, 1, 0⟩ 2 (by decide)⟩

theorem take_eq_of_getD {l1 l2 : List Nat} {k : Nat} (h1 : k ≤ l1.length) (h2 : k ≤ l2.length)
    (h : ∀ i, i < k → l1.getD i 0 = l2.getD i 0) : l1.take k = l2.take k := by
  apply List.ext_getElem?
  intro i
  simp only [List.getElem?_take]
  split
  · next hi =>
    have := h i hi
    simp only [List.getD_eq_getElem?_getD] at this
    have e1 : l1[i]? = some (l1[i]?.getD 0) := by
      rw [List.getElem?_eq_getElem (by omega)]; rfl
    have e2 : l2[i]? = some (l2[i]?.getD 0) := by
      rw [List.getElem?_eq_getElem (by omega)]; rfl
    rw [e1, e2, this]
  · rfl

/-- Where the `memset` of `apz_grow` stays inside the new buffer.  For a bignum
`x` whose buffer holds `seg_alloc` limbs, with `seg_in_use ≤ seg_alloc`, and
`new_capacity > seg_alloc`: `apz_grow` returns `LIBAPAC_OKAY` when `realloc_ptr`
succeeds and `9 * seg_alloc ≤` the new capacity (the `memset` starts
`8 * seg_alloc` limbs into the new buffer); and a `LIBAPAC_OKAY` return has
`seg_alloc = max(new_capacity, floor(3 * seg_alloc / 2) + 8)` with `seg_in_use`,
`is_negative`, every limb below the old `seg_alloc` and the value unchanged.
For `9 * seg_alloc >` the new capacity see `apz_grow_leaves_buffer`. -/
theorem apz_grow_preserves (chk : Bool) (x : apz_t) (n : Nat) (hgt : n > x.seg_alloc)
    (hbuf : x.seg_alloc ≤ x.num_array.length) (huse : x.seg_in_use ≤ x.seg_alloc)
    (hsz : x.seg_alloc * 8 < BASE) :
    (∀ junk, 9 * x.seg_alloc ≤ max n (x.seg_alloc * 3 / 2 + 8) →
      max n (x.seg_alloc * 3 / 2 + 8) * 8 < BASE →
      ∃ x1, apz_grow chk (some junk) x n = some (.LIBAPAC_OKAY, x1)) ∧
    (∀ ra x1, apz_grow chk ra x n = some (.LIBAPAC_OKAY, x1) →
      x1.seg_alloc = max n (x.seg_alloc * 3 / 2 + 8) ∧
      x1.seg_in_use = x.seg_in_use ∧ x1.is_negative = x.is_negative ∧
      (∀ i, i < x.seg_alloc → x1.num_array.getD i 0 = x.num_array.getD i 0) ∧
      x1.value = x.value) := by
  have htemp : ((x.seg_alloc * 3) % BASE / 2 + 8) % BASE = x.seg_alloc * 3 / 2 + 8 := by
    have h3 : x.seg_alloc * 3 < BASE := by omega
    rw [Nat.mod_eq_of_lt h3]
    apply Nat.mod_eq_of_lt
    unfold BASE at *
    omega
  have hnew : (if x.seg_alloc * 3 / 2 + 8 > n then x.seg_alloc * 3 / 2 + 8 else n)
      = max n (x.seg_alloc * 3 / 2 + 8) := by
    split <;> omega
  constructor
  · intro junk h9 h8
    have hassert : ASSERT chk (decide (n > x.seg_alloc ∧ n / 8 < ULLONG_MAX)) = some () := by
      have : n > x.seg_alloc ∧ n / 8 < ULLONG_MAX := by
        refine ⟨hgt, ?_⟩
        have : n ≤ max n (x.seg_alloc * 3 / 2 + 8) := le_max_left _ _
        unfold ULLONG_MAX; unfold BASE at h8; omega
      simp [ASSERT, this]
    simp only [apz_grow, hassert, htemp, hnew, Option.bind_eq_bind, Option.some_bind]
    generalize hN : max n (x.seg_alloc * 3 / 2 + 8) = N at h9 h8
    have hNgt : x.seg_alloc < N := by rw [← hN]; exact lt_of_lt_of_le hgt (le_max_left _ _)
    rw [Nat.mod_eq_of_lt h8, show N * 8 / 8 = N by omega]
    have hms : ∃ b, memset_zero
        (List.map (fun i => if i < x.num_array.length then x.num_array.getD i 0
          else junk i % BASE) (List.range N)) (x.seg_alloc * 8) (N - x.seg_alloc) = some b := by
      unfold memset_zero
      rw [if_neg (by omega), if_pos (by simp; omega)]
      exact ⟨_, rfl⟩
    obtain ⟨b, hb⟩ := hms
    rw [hb]
    exact ⟨_, rfl⟩
  · intro ra x1 hrun
    unfold apz_grow at hrun
    cases ha : ASSERT chk (decide (n > x.seg_alloc ∧ n / 8 < ULLONG_MAX)) with
    | none => rw [ha] at hrun; cases hrun
    | some u =>
      rw [ha] at hrun
      simp only [htemp, hnew, Option.bind_eq_bind, Option.some_bind] at hrun
      cases ra with
      | none => simp at hrun
      | some junk =>
        simp only [] at hrun
        generalize hN : max n (x.seg_alloc * 3 / 2 + 8) = N at hrun
        have hNgt : x.seg_alloc < N := by rw [← hN]; exact lt_of_lt_of_le hgt (le_max_left _ _)
        cases hm : memset_zero
            (List.map (fun i => if i < x.num_array.length then x.num_array.getD i 0
              else junk i % BASE) (List.range (N * 8 % BASE / 8)))
            (x.seg_alloc * 8) (N - x.seg_alloc) with
        | none => rw [hm] at hrun; cases hrun
        | some b =>
          rw [hm] at hrun
          simp only [Option.some_bind, Option.some.injEq, Prod.mk.injEq, true_and] at hrun
          subst hrun
          have hlen := memset_zero_length hm
          simp only [List.length_map, List.length_range] at hlen
          have hin : x.seg_alloc * 8 * 8 + (N - x.seg_alloc) ≤ (N * 8 % BASE / 8) * 8 := by
            unfold memset_zero at hm
            rw [if_neg (by omega)] at hm
            split at hm
            · next h => simpa using h
            · cases hm
          have hlimb : ∀ i, i < x.seg_alloc → b.getD i 0 = x.num_array.getD i 0 := by
            intro i hi
            rw [memset_zero_getD_lt hm i (by omega)]
            have hi2 : i < N * 8 % BASE / 8 := by omega
            have hi3 : i < x.num_array.length := by omega
            simp [List.getD_eq_getElem?_getD, List.getElem?_map, List.getElem?_range hi2, hi3]
          refine ⟨rfl, rfl, rfl, hlimb, ?_⟩
          have htake : b.take x.seg_in_use = x.num_array.take x.seg_in_use :=
            take_eq_of_getD (by omega) (by omega) (fun i hi => hlimb i (by omega))
          simp only [apz_t.value, htake]

/-- An instance of `apz_grow_preserves`: from capacity 1 to 9. -/
theorem apz_grow_preserves_witness :
    (2 > (⟨[5], 1, 1, 1⟩ : apz_t).seg_alloc ∧
      apz_grow true (some fun _ => 77) ⟨[5], 1, 1, 1⟩ 2
        = some (.LIBAPAC_OKAY, ⟨[5, 77, 77, 77, 77, 77, 77, 77, 0], 9, 1, 1⟩)) ∧
    (⟨[5, 77, 77, 77, 77, 77, 77, 77, 0], 9, 1, 1⟩ : apz_t).seg_alloc = max 2 (1 * 3 / 2 + 8) ∧
    (⟨[5, 77, 77, 77, 77, 77, 77, 77, 0], 9, 1, 1⟩ : apz_t).value
      = (⟨[5], 1, 1, 1⟩ : apz_t).value :=
  ⟨by decide,
   ((apz_grow_preserves true ⟨[5], 1, 1, 1⟩ 2 (by decide) (by decide) (by decide)
      (by decide)).2 (some fun _ => 77) _ (by decide)).1,
   ((apz_grow_preserves true ⟨[5], 1, 1, 1⟩ 2 (by decide) (by decide) (by decide)
      (by decide)).2 (some fun _ => 77) _ (by decide)).2.2.2.2⟩

/-- The bound `seg_in_use ≤ seg_alloc` is kept by a successful `apz_grow`
(called with `new_capacity > seg_alloc`), `apz_shrink_fit` and `apz_reset`. -/
theorem seg_in_use_le_seg_alloc_kept (chk : Bool) (ra : Option (Nat → Nat)) (x x1 : apz_t)
    (n : Nat) (e : libapac_err) (h : x.seg_in_use ≤ x.seg_alloc) :
    (n > x.seg_alloc → apz_grow chk ra x n = some (e, x1) → x1.seg_in_use ≤ x1.seg_alloc) ∧
    (apz_shrink_fit ra x = some (e, x1) → x1.seg_in_use ≤ x1.seg_alloc) ∧
    (apz_reset x = some (e, x1) → x1.seg_in_use ≤ x1.seg_alloc) := by
  refine ⟨?_, ?_, ?_⟩
  · intro hn hrun
    unfold apz_grow at hrun
    cases ha : ASSERT chk (decide (n > x.seg_alloc ∧ n / 8 < ULLONG_MAX)) with
    | none => rw [ha] at hrun; cases hrun
    | some u =>
      rw [ha] at hrun
      simp only [Option.bind_eq_bind, Option.some_bind] at hrun
      cases ra with
      | none =>
        simp only [Option.some.injEq, Prod.mk.injEq] at hrun
        rw [← hrun.2]; exact h
      | some junk =>
        simp only [] at hrun
        cases hm : memset_zero _ _ _ with
        | none => rw [hm] at hrun; cases hrun
        | some b =>
          rw [hm] at hrun
          simp only [Option.some_bind, Option.some.injEq, Prod.mk.injEq] at hrun
          rw [← hrun.2]
          simp only []
          split <;> omega
  · intro hrun
    unfold apz_shrink_fit at hrun
    cases ra with
    | none =>
      simp only [Option.some.injEq, Prod.mk.injEq] at hrun
      rw [← hrun.2]; exact h
    | some junk =>
      simp only [Option.some.injEq, Prod.mk.injEq] at hrun
      rw [← hrun.2]
  · intro hrun
    unfold apz_reset at hrun
    cases hm : memset_zero x.num_array 0 (x.seg_alloc * 8 % BASE) with
    | none => rw [hm] at hrun; cases hrun
    | some b =>
      rw [hm] at hrun
      simp only [Option.bind_eq_bind, Option.some_bind, Option.some.injEq, Prod.mk.injEq] at hrun
      rw [← hrun.2]
      exact Nat.zero_le _

/-- C18, at the zero bignum: `apz_init_pos64` with capacity 1 and value 0 (or a
reset bignum) has `seg_in_use = 0`; a successful `apz_shrink_fit` reallocates
to `seg_in_use` limbs and sets `seg_alloc = seg_in_use = 0`, so `seg_alloc ≥ 1`
fails; the handle then has no limb 0, which `apz_hl_add_ui` reads from its
operand. -/
theorem shrink_fit_zero_capacity :
    apz_init_pos64 true (some fun i => i + 7) 1 0 = some (.LIBAPAC_OKAY, some ⟨[0], 1, 0, 0⟩) ∧
    apz_reset ⟨[5], 1, 1, 0⟩ = some (.LIBAPAC_OKAY, ⟨[0], 1, 0, 0⟩) ∧
    apz_shrink_fit (some fun _ => 0) ⟨[0], 1, 0, 0⟩ = some (.LIBAPAC_OKAY, ⟨[], 0, 0, 0⟩) ∧
    ¬ (1 ≤ (⟨[], 0, 0, 0⟩ : apz_t).seg_alloc) ∧
    (∀ chk : Bool, apz_hl_add_ui chk none dest4 ⟨[], 0, 0, 0⟩ 5 = none) := by
  decide

/-! ## Out of memory (C19) -/

theorem apz_grow_status {chk : Bool} {ra : Option (Nat → Nat)} {x x1 : apz_t} {n : Nat}
    {e : libapac_err} (h : apz_grow chk ra x n = some (e, x1)) :
    (e = .LIBAPAC_OOM ∧ ra = none ∧ x1 = x) ∨ (e = .LIBAPAC_OKAY ∧ ra ≠ none) := by
  unfold apz_grow at h
  cases ha : ASSERT chk (decide (n > x.seg_alloc ∧ n / 8 < ULLONG_MAX)) with
  | none => rw [ha] at h; cases h
  | some u =>
    rw [ha] at h
    simp only [Option.bind_eq_bind, Option.some_bind] at h
    cases ra with
    | none =>
      simp only [Option.some.injEq, Prod.mk.injEq] at h
      exact Or.inl ⟨h.1.symm, rfl, h.2.symm⟩
    | some junk =>
      simp only [] at h
      cases hm : memset_zero _ _ _ with
      | none => rw [hm] at h; cases h
      | some b =>
        rw [hm] at h
        simp only [Option.some_bind, Option.some.injEq, Prod.mk.injEq] at h
        exact Or.inr ⟨h.1.symm, by simp⟩

theorem apz_grow_fail {chk : Bool} {x : apz_t} {n : Nat} (h1 : n > x.seg_alloc)
    (h2 : n < BASE) : apz_grow chk none x n = some (.LIBAPAC_OOM, x) := by
  have : n > x.seg_alloc ∧ n / 8 < ULLONG_MAX := by
    refine ⟨h1, ?_⟩
    unfold ULLONG_MAX; unfold BASE at h2; omega
  simp [apz_grow, ASSERT, this]

theorem grow_if_requested_oom {chk : Bool} {ra : Option (Nat → Nat)} {result r : apz_t}
    {request : Option Nat}
    (h : grow_if_requested chk ra result request = some (.LIBAPAC_OOM, r)) :
    ra = none ∧ r = result ∧ ∃ k, request = some k := by
  cases request with
  | none => simp [grow_if_requested] at h
  | some k =>
    rcases apz_grow_status h with ⟨_, h2, h3⟩ | ⟨h1, _⟩
    · exact ⟨h2, h3, k, rfl⟩
    · cases h1

/-- The shape shared by the three signed operations: the capacity test `D`,
the early return on `LIBAPAC_OOM`, and a tail `T` whose status is the one the
capacity test gave. -/
theorem oom_of_shape {D : Option (libapac_err × apz_t)}
    {T : libapac_err × apz_t → Option (libapac_err × apz_t)}
    (hT : ∀ p e r, T p = some (e, r) → e = p.1) {r : apz_t}
    (h : (D.bind fun p => if p.1 = .LIBAPAC_OOM then some (p.1, p.2) else T p)
      = some (.LIBAPAC_OOM, r)) :
    D = some (.LIBAPAC_OOM, r) := by
  cases D with
  | none => cases h
  | some p =>
    simp only [Option.some_bind] at h
    split at h
    · next hp =>
      simp only [Option.some.injEq, Prod.mk.injEq] at h
      obtain ⟨p1, p2⟩ := p
      simp only at h hp
      rw [h.1, h.2]
    · next hp =>
      exact absurd (hT p _ _ h).symm hp

theorem hl_add_dispatch (chk : Bool) (ra : Option (Nat → Nat)) (result op1 op2 : apz_t)
    (g : Int) :
    (if (if (if g = -1 then op2 else op1).is_negative ≠ (if g = -1 then op1 else op2).is_negative
          then 1 else 0) = 0 ∧
        result.seg_alloc < ((if g = -1 then op2 else op1).seg_in_use + 1) % BASE then
      apz_grow chk ra result (((if g = -1 then op2 else op1).seg_in_use + 1) % BASE)
    else if (if (if g = -1 then op2 else op1).is_negative
            ≠ (if g = -1 then op1 else op2).is_negative then 1 else 0) ≠ 0 ∧
        result.seg_alloc < (if g = -1 then op2 else op1).seg_in_use then
      apz_grow chk ra result (if g = -1 then op2 else op1).seg_in_use
    else some (.LIBAPAC_OKAY, result))
    = grow_if_requested chk ra result (hl_grow_request true result op1 op2 g)  := by
  unfold hl_grow_request grow_if_requested
  simp only []
  generalize (if g = -1 then op2 else op1) = mx
  generalize (if g = -1 then op1 else op2) = mn
  by_cases hs : mx.is_negative = mn.is_negative
  · by_cases hc1 : result.seg_alloc < (mx.seg_in_use + 1) % BASE <;>
      by_cases hc2 : result.seg_alloc < mx.seg_in_use <;> simp [hs, hc1, hc2]
  · by_cases hc1 : result.seg_alloc < (mx.seg_in_use + 1) % BASE <;>
      by_cases hc2 : result.seg_alloc < mx.seg_in_use <;> simp [hs, hc1, hc2]

theorem hl_sub_dispatch (chk : Bool) (ra : Option (Nat → Nat)) (result op1 op2 : apz_t)
    (g : Int) :
    (if (if (if g = -1 then op2 else op1).is_negative ≠ (if g = -1 then op1 else op2).is_negative
          then 0 else 1) = 0 ∧
        result.seg_alloc < ((if g = -1 then op2 else op1).seg_in_use + 1) % BASE then
      apz_grow chk ra result (((if g = -1 then op2 else op1).seg_in_use + 1) % BASE)
    else if (if (if g = -1 then op2 else op1).is_negative
            ≠ (if g = -1 then op1 else op2).is_negative then 0 else 1) ≠ 0 ∧
        result.seg_alloc < (if g = -1 then op2 else op1).seg_in_use then
      apz_grow chk ra result (if g = -1 then op2 else op1).seg_in_use
    else some (.LIBAPAC_OKAY, result))
    = grow_if_requested chk ra result (hl_grow_request false result op1 op2 g)  := by
  unfold hl_grow_request grow_if_requested
  simp only []
  generalize (if g = -1 then op2 else op1) = mx
  generalize (if g = -1 then op1 else op2) = mn
  by_cases hs : mx.is_negative = mn.is_negative
  · by_cases hc1 : result.seg_alloc < (mx.seg_in_use + 1) % BASE <;>
      by_cases hc2 : result.seg_alloc < mx.seg_in_use <;> simp [hs, hc1, hc2]
  · by_cases hc1 : result.seg_alloc < (mx.seg_in_use + 1) % BASE <;>
      by_cases hc2 : result.seg_alloc < mx.seg_in_use <;> simp [hs, hc1, hc2]

theorem hl_add_ui_dispatch (chk : Bool) (ra : Option (Nat → Nat)) (result op1 : apz_t) :
    (if op1.is_negative = APZ_NEG ∧ result.seg_alloc < op1.seg_in_use then
      apz_grow chk ra result op1.seg_in_use
    else if op1.is_negative = APZ_ZPOS ∧ result.seg_alloc < (op1.seg_in_use + 1) % BASE then
      apz_grow chk ra result ((op1.seg_in_use + 1) % BASE)
    else some (.LIBAPAC_OKAY, result))
    = grow_if_requested chk ra result (hl_add_ui_grow_request result op1) := by
  unfold hl_add_ui_grow_request grow_if_requested
  split
  · rfl
  · split <;> rfl

theorem hl_grow_request_gt {is_add : Bool} {result op1 op2 : apz_t} {g : Int} {k : Nat}
    (h : hl_grow_request is_add result op1 op2 g = some k) : k > result.seg_alloc := by
  unfold hl_grow_request at h
  simp only [] at h
  generalize (if g = -1 then op2 else op1) = mx at h
  generalize (if g = -1 then op1 else op2) = mn at h
  generalize (if is_add = true then decide (mx.is_negative = mn.is_negative)
    else decide (mx.is_negative ≠ mn.is_negative)) = ab at h
  by_cases hc1 : ab = true ∧ result.seg_alloc < (mx.seg_in_use + 1) % BASE
  · rw [if_pos hc1] at h; cases h; exact hc1.2
  · rw [if_neg hc1] at h
    by_cases hc2 : ab = false ∧ result.seg_alloc < mx.seg_in_use
    · rw [if_pos hc2] at h; cases h; exact hc2.2
    · rw [if_neg hc2] at h; cases h

theorem hl_add_ui_grow_request_gt {result op1 : apz_t} {k : Nat}
    (h : hl_add_ui_grow_request result op1 = some k) : k > result.seg_alloc := by
  unfold hl_add_ui_grow_request at h
  split at h
  · next hc => cases h; exact hc.2
  · split at h
    · next hc => cases h; exact hc.2
    · cases h

theorem grow_if_requested_fail {chk : Bool} {result : apz_t} {k : Nat}
    (h1 : k > result.seg_alloc) (h2 : k < BASE) :
    grow_if_requested chk none result (some k) = some (.LIBAPAC_OOM, result) :=
  apz_grow_fail h1 h2

theorem hl_add_oom {chk : Bool} {ra : Option (Nat → Nat)} {result op1 op2 r : apz_t}
    (h : apz_hl_add chk ra result op1 op2 = some (.LIBAPAC_OOM, r)) :
    ra = none ∧ r = result ∧
      ∃ g k, apz_abs_greater op1 op2 = some g ∧
        hl_grow_request true result op1 op2 g = some k := by
  unfold apz_hl_add at h
  cases hg : apz_abs_greater op1 op2 with
  | none => rw [hg] at h; cases h
  | some g =>
    rw [hg] at h
    simp only [Option.bind_eq_bind, Option.some_bind] at h
    rw [hl_add_dispatch] at h
    have hD := oom_of_shape (fun p e r ht => by
      simp only [Option.bind_eq_some] at ht
      obtain ⟨_, _, _, _, ht2⟩ := ht
      simp only [Option.some.injEq, Prod.mk.injEq] at ht2
      exact ht2.1.symm) h
    obtain ⟨h1, h2, k, hk⟩ := grow_if_requested_oom hD
    exact ⟨h1, h2, g, k, rfl, hk⟩

theorem hl_add_fail {chk : Bool} {result op1 op2 : apz_t} {g : Int} {k : Nat}
    (hg : apz_abs_greater op1 op2 = some g)
    (hk : hl_grow_request true result op1 op2 g = some k) (hlt : k < BASE) :
    apz_hl_add chk none result op1 op2 = some (.LIBAPAC_OOM, result) := by
  unfold apz_hl_add
  rw [hg]
  simp only [Option.bind_eq_bind, Option.some_bind]
  rw [hl_add_dispatch, hk, grow_if_requested_fail (hl_grow_request_gt hk) hlt]
  simp

theorem hl_sub_oom {chk : Bool} {ra : Option (Nat → Nat)} {result op1 op2 r : apz_t}
    (h : apz_hl_sub chk ra result op1 op2 = some (.LIBAPAC_OOM, r)) :
    ra = none ∧ r = result ∧
      ∃ g k, apz_abs_greater op1 op2 = some g ∧
        hl_grow_request false result op1 op2 g = some k := by
  unfold apz_hl_sub at h
  cases hg : apz_abs_greater op1 op2 with
  | none => rw [hg] at h; cases h
  | some g =>
    rw [hg] at h
    simp only [Option.bind_eq_bind, Option.some_bind] at h
    rw [hl_sub_dispatch] at h
    have hD := oom_of_shape (fun p e r ht => by
      simp only [Option.bind_eq_some] at ht
      obtain ⟨_, _, _, _, ht2⟩ := ht
      simp only [Option.some.injEq, Prod.mk.injEq] at ht2
      exact ht2.1.symm) h
    obtain ⟨h1, h2, k, hk⟩ := grow_if_requested_oom hD
    exact ⟨h1, h2, g, k, rfl, hk⟩

theorem hl_sub_fail {chk : Bool} {result op1 op2 : apz_t} {g : Int} {k : Nat}
    (hg : apz_abs_greater op1 op2 = some g)
    (hk : hl_grow_request false result op1 op2 g = some k) (hlt : k < BASE) :
    apz_hl_sub chk none result op1 op2 = some (.LIBAPAC_OOM, result) := by
  unfold apz_hl_sub
  rw [hg]
  simp only [Option.bind_eq_bind, Option.some_bind]
  rw [hl_sub_dispatch, hk, grow_if_requested_fail (hl_grow_request_gt hk) hlt]
  simp

theorem hl_add_ui_oom {chk : Bool} {ra : Option (Nat → Nat)} {result op1 r : apz_t} {val : Nat}
    (h : apz_hl_add_ui chk ra result op1 val = some (.LIBAPAC_OOM, r)) :
    ra = none ∧ r = result ∧ ∃ k, hl_add_ui_grow_request result op1 = some k := by
  unfold apz_hl_add_ui at h
  cases ha : ASSERT chk (decide (val ≠ 0)) with
  | none => rw [ha] at h; cases h
  | some u =>
    rw [ha] at h
    simp only [Option.bind_eq_bind, Option.some_bind] at h
    rw [hl_add_ui_dispatch] at h
    have hD := oom_of_shape (fun p e r ht => by
      simp only [Option.bind_eq_some] at ht
      obtain ⟨d, _, ht⟩ := ht
      split at ht
      · simp only [Option.bind_eq_some] at ht
        obtain ⟨sm, _, ht⟩ := ht
        split at ht
        · simp only [Option.bind_eq_some] at ht
          obtain ⟨a0, _, r3, _, ht⟩ := ht
          simp only [Option.some.injEq, Prod.mk.injEq] at ht
          exact ht.1.symm
        · simp only [Option.bind_eq_some] at ht
          obtain ⟨a0, _, r3, _, a1, _, r4, _, ht⟩ := ht
          simp only [Option.some.injEq, Prod.mk.injEq] at ht
          exact ht.1.symm
      · simp only [Option.bind_eq_some] at ht
        obtain ⟨a0, _, r3, _, rc, _, r5, _, ht⟩ := ht
        simp only [Option.some.injEq, Prod.mk.injEq] at ht
        exact ht.1.symm) h
    obtain ⟨h1, h2, k, hk⟩ := grow_if_requested_oom hD
    exact ⟨h1, h2, k, hk⟩

theorem hl_add_ui_fail {chk : Bool} {result op1 : apz_t} {val k : Nat} (hv : val ≠ 0)
    (hk : hl_add_ui_grow_request result op1 = some k) (hlt : k < BASE) :
    apz_hl_add_ui chk none result op1 val = some (.LIBAPAC_OOM, result) := by
  unfold apz_hl_add_ui
  have ha : ASSERT chk (decide (val ≠ 0)) = some () := by simp [ASSERT, hv]
  rw [ha]
  simp only [Option.bind_eq_bind, Option.some_bind]
  rw [hl_add_ui_dispatch, hk, grow_if_requested_fail (hl_add_ui_grow_request_gt hk) hlt]
  simp

/-- C19: out-of-memory leaves the destination intact.  For each of
`apz_hl_add`, `apz_hl_sub` and `apz_hl_add_ui`: if the operation returns
`LIBAPAC_OOM`, then the reallocation failed, the capacity test of the operation
had called `apz_grow`, and the destination (limbs, `seg_alloc`, `seg_in_use`,
`is_negative`) is exactly as before the call; and whenever the capacity test
calls `apz_grow` and the reallocation fails, the operation returns
`LIBAPAC_OOM` with the destination as before the call. -/
theorem oom_leaves_destination_intact (chk : Bool) (result op1 op2 : apz_t) (val : Nat) :
    (∀ ra r, apz_hl_add chk ra result op1 op2 = some (.LIBAPAC_OOM, r) →
      ra = none ∧ r = result ∧
        ∃ g k, apz_abs_greater op1 op2 = some g ∧
          hl_grow_request true result op1 op2 g = some k) ∧
    (∀ g k, apz_abs_greater op1 op2 = some g →
      hl_grow_request true result op1 op2 g = some k → k < BASE →
      apz_hl_add chk none result op1 op2 = some (.LIBAPAC_OOM, result)) ∧
    (∀ ra r, apz_hl_sub chk ra result op1 op2 = some (.LIBAPAC_OOM, r) →
      ra = none ∧ r = result ∧
        ∃ g k, apz_abs_greater op1 op2 = some g ∧
          hl_grow_request false result op1 op2 g = some k) ∧
    (∀ g k, apz_abs_greater op1 op2 = some g →
      hl_grow_request false result op1 op2 g = some k → k < BASE →
      apz_hl_sub chk none result op1 op2 = some (.LIBAPAC_OOM, result)) ∧
    (∀ ra r, apz_hl_add_ui chk ra result op1 val = some (.LIBAPAC_OOM, r) →
      ra = none ∧ r = result ∧ ∃ k, hl_add_ui_grow_request result op1 = some k) ∧
    (∀ k, val ≠ 0 → hl_add_ui_grow_request result op1 = some k → k < BASE →
      apz_hl_add_ui chk none result op1 val = some (.LIBAPAC_OOM, result)) :=
  ⟨fun _ _ h => hl_add_oom h, fun _ _ hg hk hlt => hl_add_fail hg hk hlt,
   fun _ _ h => hl_sub_oom h, fun _ _ hg hk hlt => hl_sub_fail hg hk hlt,
   fun _ _ h => hl_add_ui_oom h, fun _ hv hk hlt => hl_add_ui_fail hv hk hlt⟩

/-- An instance of `oom_leaves_destination_intact`: a destination of capacity 1
holding 9, operands `+(2^64-1)` and `+1` (sum and difference of opposite signs
need two limbs), and the scalar 1; the reallocation fails. -/
theorem oom_leaves_destination_intact_witness :
    apz_hl_add true none ⟨[9], 1, 1, 1⟩ ⟨[2 ^ 64 - 1], 1, 1, 0⟩ ⟨[1], 1, 1, 0⟩
      = some (.LIBAPAC_OOM, ⟨[9], 1, 1, 1⟩) ∧
    apz_hl_sub true none ⟨[9], 1, 1, 1⟩ ⟨[2 ^ 64 - 1], 1, 1, 0⟩ ⟨[1], 1, 1, 1⟩
      = some (.LIBAPAC_OOM, ⟨[9], 1, 1, 1⟩) ∧
    apz_hl_add_ui true none ⟨[9], 1, 1, 1⟩ ⟨[2 ^ 64 - 1], 1, 1, 0⟩ 1
      = some (.LIBAPAC_OOM, ⟨[9], 1, 1, 1⟩) :=
  ⟨(oom_leaves_destination_intact true ⟨[9], 1, 1, 1⟩ ⟨[2 ^ 64 - 1], 1, 1, 0⟩ ⟨[1], 1, 1, 0⟩
      1).2.1 1 2 (by decide) (by decide) (by decide),
   (oom_leaves_destination_intact true ⟨[9], 1, 1, 1⟩ ⟨[2 ^ 64 - 1], 1, 1, 0⟩ ⟨[1], 1, 1, 1⟩
      1).2.2.2.1 1 2 (by decide) (by decide) (by decide),
   (oom_leaves_destination_intact true ⟨[9], 1, 1, 1⟩ ⟨[2 ^ 64 - 1], 1, 1, 0⟩ ⟨[1], 1, 1, 0⟩
      1).2.2.2.2.2 2 (by decide) (by decide) (by decide)⟩

/-! ## Karatsuba workspace (C20) -/

set_option maxRecDepth 100000 in
/-- C20, at `n = 9` (nine-limb operands held in ten-limb arrays, zeroed
18-limb result, assertions compiled out): with the workspace the call
allocates itself, `8 * ceil(9/2) = 40` limbs, the call leaves the workspace;
so it does with a caller's workspace of 40 or of 43 limbs, while with 44 limbs
it returns: the workspace index 43 is used.  (With the assertions active the
same call stops at an assertion.) -/
theorem karatsuba_workspace_overrun :
    karatsuba_call false id nine_a nine_b (List.replicate 18 0) 9 none = none ∧
    karatsuba_call false id nine_a nine_b (List.replicate 18 0) 9
      (some (List.replicate 40 0)) = none ∧
    karatsuba_call false id nine_a nine_b (List.replicate 18 0) 9
      (some (List.replicate 43 0)) = none ∧
    (karatsuba_call false id nine_a nine_b (List.replicate 18 0) 9
      (some (List.replicate 44 0))).isSome = true ∧
    karatsuba_call true id nine_a nine_b (List.replicate 18 0) 9
      (some (List.replicate 44 0)) = none := by
  decide

/-! ## Karatsuba carry tail (C21) -/

/-- The carry tail when its count is at least 1: for `n ≥ 2`, `n ≠ 3` and
`L = ceil(n/2)`, the call
`apz_abs_add_ui_x64(result + 3L, result + 3L, c, 2n - 3L)` on a result array
of `2n` limbs returns and changes no limb outside `result[3L..2n)`. -/
theorem carry_tail_inside (mem : Mem) (result : Ptr) (n c : Nat) (hn : 2 ≤ n) (hn3 : n ≠ 3)
    (hc : c ≤ 1) (hr : IsArray mem result (2 * n)) :
    ∃ mem1 c1, apz_abs_add_ui_x64 mem (result.add (3 * ((n + 1) / 2)))
        (result.add (3 * ((n + 1) / 2))) c (2 * n - 3 * ((n + 1) / 2)) = some (mem1, c1) ∧
      (∀ j, (j < 3 * ((n + 1) / 2) ∨ 2 * n ≤ j) → limb mem1 result j = limb mem result j) ∧
      (∀ blk, (mem1 blk).length = (mem blk).length) := by
  have hcnt : 1 ≤ 2 * n - 3 * ((n + 1) / 2) := by omega
  have harr : IsArray mem (result.add (3 * ((n + 1) / 2))) (2 * n - 3 * ((n + 1) / 2)) :=
    ⟨by show result.off + 3 * ((n + 1) / 2) + (2 * n - 3 * ((n + 1) / 2))
          ≤ (mem result.blk).length
        have := hr.1; omega,
     fun t ht => by rw [limb_add]; exact hr.2 _ (by omega)⟩
  obtain ⟨mem1, c1, hrun, _, hlen, hframe, _, _⟩ :=
    abs_add_ui_spec mem (result.add (3 * ((n + 1) / 2))) (result.add (3 * ((n + 1) / 2))) c
      (2 * n - 3 * ((n + 1) / 2)) hcnt (by unfold BASE; omega) harr harr.1
      (Or.inr (Or.inl (Nat.le_refl _)))
  refine ⟨mem1, c1, hrun, fun j hj => ?_, hlen⟩
  apply hframe
  right
  show result.off + j < result.off + 3 * ((n + 1) / 2) ∨
    result.off + 3 * ((n + 1) / 2) + (2 * n - 3 * ((n + 1) / 2)) ≤ result.off + j
  omega

/-- C21, at `n = 3` (`L = 2`, `2n - 3L = 0`; three-limb operands held in
four-limb arrays, zeroed result, workspace allocated by the call): the carry
tail `apz_abs_add_ui_x64(result + 6, result + 6, c, 0)` reads and writes
`result[6]`.  With a result array of exactly `2n = 6` limbs the call leaves
the array, with assertions active or not; with a seventh limb it returns the
product.  The tail call alone behaves the same way. -/
theorem karatsuba_carry_tail_overrun :
    2 * 3 - 3 * ((3 + 1) / 2) = 0 ∧
    (∀ chk : Bool, karatsuba_call chk id three_a three_b (List.replicate 6 0) 3 none = none) ∧
    (∀ chk : Bool, karatsuba_call chk id three_a three_b (List.replicate 7 0) 3 none
      = some [3, 0, 7, 0, 2, 0, 0]) ∧
    basecase_main [1, 0, 2] [3, 0, 1] = some [3, 0, 7, 0, 2, 0] ∧
    (apz_abs_add_ui_x64 (mem3 [] [] (List.replicate 6 0)) ⟨2, 6⟩ ⟨2, 6⟩ 1 0).isSome = false ∧
    (apz_abs_add_ui_x64 (mem3 [] [] (List.replicate 7 0)) ⟨2, 6⟩ ⟨2, 6⟩ 1 0).map
      (fun o => (o.1 2, o.2)) = some ([0, 0, 0, 0, 0, 0, 1], 0) := by
  decide

/-! ## The multiplier carry chain (C22) -/

/-- The loop of `apz_mul_ui_x64` run for `k + m` iterations is its first `k`
iterations followed by `m` iterations from the state they leave. -/
theorem mul_ui_loop_append (r a : Ptr) (val : Nat) :
    ∀ (k m j hi c : Nat) (mem : Mem),
      mul_ui_loop r a val (k + m) j hi c mem
        = (mul_ui_loop r a val k j hi c mem).bind fun s =>
            mul_ui_loop r a val m (j + k) s.2.1 s.2.2 s.1 := by
  intro k
  induction k with
  | zero => intro m j hi c mem; simp [mul_ui_loop]
  | succ k ih =>
    intro m j hi c mem
    rw [show k + 1 + m = (k + m) + 1 by omega]
    simp only [mul_ui_loop, Option.bind_eq_bind]
    cases load mem a j with
    | none => rfl
    | some av =>
      cases load mem r j with
      | none => rfl
      | some rv =>
        simp only [Option.some_bind]
        cases store mem r j (mul_step hi c av val rv).2.2 with
        | none => rfl
        | some mem1 =>
          simp only [Option.some_bind]
          rw [ih, show j + 1 + k = j + (k + 1) by omega]

/-- The inner loop of `apz_mul_basecase_x64` run for `k + m` iterations is its
first `k` iterations followed by `m` iterations from the state they leave. -/
theorem mul_basecase_inner_append (r a b : Ptr) (i : Nat) :
    ∀ (k m j hi c : Nat) (mem : Mem),
      mul_basecase_inner r a b i (k + m) j hi c mem
        = (mul_basecase_inner r a b i k j hi c mem).bind fun s =>
            mul_basecase_inner r a b i m (j + k) s.2.1 s.2.2 s.1 := by
  intro k
  induction k with
  | zero => intro m j hi c mem; simp [mul_basecase_inner]
  | succ k ih =>
    intro m j hi c mem
    rw [show k + 1 + m = (k + m) + 1 by omega]
    simp only [mul_basecase_inner, Option.bind_eq_bind]
    cases load mem a i with
    | none => rfl
    | some av =>
      cases load mem b j with
      | none => rfl
      | some bv =>
        cases load mem r (i + j) with
        | none => rfl
        | some rv =>
          simp only [Option.some_bind]
          cases store mem r (i + j) (mul_step hi c av bv rv).2.2 with
          | none => rfl
          | some mem1 =>
            simp only [Option.some_bind]
            rw [ih, show j + 1 + k = j + (k + 1) by omega]

/-- A limb read after a write is the written value or the limb from before. -/
theorem limb_write_cases (mem : Mem) (q p : Ptr) (i t v : Nat) :
    limb (mem.write q i v) p t = v ∨ limb (mem.write q i v) p t = limb mem p t := by
  by_cases h : p.blk = q.blk ∧ p.off + t = q.off + i
  · by_cases hl : q.off + i < (mem q.blk).length
    · left
      unfold limb Mem.write
      simp [h.1, h.2, List.getD, List.getElem?_set, hl]
    · right
      have hn : (mem q.blk)[q.off + i]? = none := by simp; omega
      unfold limb Mem.write
      simp [h.1, h.2, List.getD, List.getElem?_set, hl, hn]
  · right
    exact limb_write_of_ne v (by omega)

/-- Writing a 64-bit value anywhere keeps every array an array of 64-bit limbs. -/
theorem IsArray_write {mem : Mem} {p : Ptr} {n : Nat} (q : Ptr) (i : Nat) {v : Nat}
    (hv : v < BASE) (h : IsArray mem p n) : IsArray (mem.write q i v) p n :=
  ⟨by rw [length_write]; exact h.1, fun t ht => by
    rcases limb_write_cases mem q p i t v with e | e <;> rw [e]
    · exact hv
    · exact h.2 t ht⟩

/-- The loop of `apz_mul_ui_x64` on arbitrary, possibly overlapping arrays: it
runs through, `high64 + aux2` stays below `2^64`, the arrays stay arrays, and
only `r[j..j+k)` is written. -/
theorem mul_ui_loop_total (r a : Ptr) (val n : Nat) (hval : val < BASE) :
    ∀ (k j hi c : Nat) (mem : Mem), hi + c < BASE → j + k ≤ n →
      IsArray mem a n → IsArray mem r n →
      ∃ mem1 hi1 c1, mul_ui_loop r a val k j hi c mem = some (mem1, hi1, c1) ∧
        hi1 + c1 < BASE ∧ IsArray mem1 a n ∧ IsArray mem1 r n ∧
        (∀ q t, (q.blk ≠ r.blk ∨ q.off + t < r.off + j ∨ r.off + (j + k) ≤ q.off + t) →
          limb mem1 q t = limb mem q t) := by
  intro k
  induction k with
  | zero =>
    intro j hi c mem hhc _ ha hr
    exact ⟨mem, hi, c, rfl, hhc, ha, hr, fun _ _ _ => rfl⟩
  | succ k ih =>
    intro j hi c mem hhc hjk ha hr
    have hla : a.off + j < (mem a.blk).length := by have := ha.1; omega
    have hlr : r.off + j < (mem r.blk).length := by have := hr.1; omega
    obtain ⟨h1, h2, _⟩ := mul_step_spec hhc (ha.2 j (by omega)) hval (hr.2 j (by omega))
    generalize hms : mul_step hi c (limb mem a j) val (limb mem r j) = ms at h1 h2
    obtain ⟨hn, cn, rn⟩ := ms
    simp only at h1 h2
    obtain ⟨mem2, hi2, c2, hrun, hhc2, ha2, hr2, hframe2⟩ :=
      ih (j + 1) hn cn (mem.write r j rn) h1 (by omega) (IsArray_write r j h2 ha)
        (IsArray_write r j h2 hr)
    refine ⟨mem2, hi2, c2, ?_, hhc2, ha2, hr2, ?_⟩
    · simp only [mul_ui_loop, load_of_lt hla, load_of_lt hlr, hms, store_of_lt rn hlr,
        Option.bind_eq_bind, Option.some_bind]
      exact hrun
    · intro q t hq
      rw [hframe2 q t (by omega)]
      exact limb_write_of_ne rn (by omega)

/-- The inner loop of `apz_mul_basecase_x64` for row `i` on arbitrary, possibly
overlapping arrays: it runs through, `high64 + aux2` stays below `2^64`, the
arrays stay arrays, and only `r[i+j..i+j+k)` is written. -/
theorem mul_basecase_inner_total (r a b : Ptr) (i m n : Nat) (him : i < m) :
    ∀ (k j hi c : Nat) (mem : Mem), hi + c < BASE → j + k ≤ n →
      IsArray mem a m → IsArray mem b n → IsArray mem r (m + n) →
      ∃ mem1 hi1 c1, mul_basecase_inner r a b i k j hi c mem = some (mem1, hi1, c1) ∧
        hi1 + c1 < BASE ∧ IsArray mem1 a m ∧ IsArray mem1 b n ∧ IsArray mem1 r (m + n) ∧
        (∀ q t, (q.blk ≠ r.blk ∨ q.off + t < r.off + (i + j) ∨ r.off + (i + j + k) ≤ q.off + t) →
          limb mem1 q t = limb mem q t) := by
  intro k
  induction k with
  | zero =>
    intro j hi c mem hhc _ ha hb hr
    exact ⟨mem, hi, c, rfl, hhc, ha, hb, hr, fun _ _ _ => rfl⟩
  | succ k ih =>
    intro j hi c mem hhc hjk ha hb hr
    have hla : a.off + i < (mem a.blk).length := by have := ha.1; omega
    have hlb : b.off + j < (mem b.blk).length := by have := hb.1; omega
    have hlr : r.off + (i + j) < (mem r.blk).length := by have := hr.1; omega
    obtain ⟨h1, h2, _⟩ :=
      mul_step_spec hhc (ha.2 i him) (hb.2 j (by omega)) (hr.2 (i + j) (by omega))
    generalize hms : mul_step hi c (limb mem a i) (limb mem b j) (limb mem r (i + j)) = ms at h1 h2
    obtain ⟨hn, cn, rn⟩ := ms
    simp only at h1 h2
    obtain ⟨mem2, hi2, c2, hrun, hhc2, ha2, hb2, hr2, hframe2⟩ :=
      ih (j + 1) hn cn (mem.write r (i + j) rn) h1 (by omega) (IsArray_write r (i + j) h2 ha)
        (IsArray_write r (i + j) h2 hb) (IsArray_write r (i + j) h2 hr)
    refine ⟨mem2, hi2, c2, ?_, hhc2, ha2, hb2, hr2, ?_⟩
    · simp only [mul_basecase_inner, load_of_lt hla, load_of_lt hlb, load_of_lt hlr, hms,
        store_of_lt rn hlr, Option.bind_eq_bind, Option.some_bind]
      exact hrun
    · intro q t hq
      rw [hframe2 q t (by omega)]
      exact limb_write_of_ne rn (by omega)

/-- C22: the multiplier carry chain never wraps.  In the loop of
`apz_mul_ui_x64` (operand `b`, scalar `v`, result `r`) and in the inner loop of
`apz_mul_basecase_x64` for any row `i` (factor `a[i]`, operand `b`, result
`r + i`), started as the source starts them with `high64 = aux2 = 0`, for any
arrays of 64-bit limbs `a`, `b`, `r` (they may overlap in any way) and any
contents of the result limbs: after any `k ≤ n` iterations (the start of
iteration `k`, or the row's end for `k = n`) the loop has reached a state
`(high64, aux2)` with `high64 + aux2 < 2^64`, from which the rest of the loop
continues, and the next iteration leaves
`high64 * 2^64 + aux2 * 2^64 + result[i+k]` equal to `a[i] * b[k]`
(`b[k] * v` for the scalar loop) plus the previous `high64 + aux2` plus the
previous `result[i+k]`, the limbs being those the iteration reads.  The limb
`result[i+k]` it reads is the one from before the loop, and so are `a[i]` and
`b[k]` when the result overlaps neither operand. -/
theorem mul_carry_chain_never_wraps (mem : Mem) (r a b : Ptr) (m n v i k : Nat)
    (ha : IsArray mem a m) (hb : IsArray mem b n) (hr : IsArray mem r (m + n))
    (hv : v < BASE) (hi : i < m) (hk : k ≤ n) :
    (∃ mem1 high64 aux2, mul_ui_loop r b v k 0 0 0 mem = some (mem1, high64, aux2) ∧
      mul_ui_loop r b v n 0 0 0 mem = mul_ui_loop r b v (n - k) k high64 aux2 mem1 ∧
      high64 + aux2 < BASE ∧
      (k < n → ∃ mem2 high2 aux2a,
        mul_ui_loop r b v (k + 1) 0 0 0 mem = some (mem2, high2, aux2a) ∧
        high2 + aux2a < BASE ∧
        high2 * BASE + aux2a * BASE + limb mem2 r k
          = limb mem1 b k * v + (high64 + aux2) + limb mem1 r k ∧
        limb mem1 r k = limb mem r k ∧
        (ReadSafe r b n → limb mem1 b k = limb mem b k))) ∧
    (∃ mem1 high64 aux2, mul_basecase_inner r a b i k 0 0 0 mem = some (mem1, high64, aux2) ∧
      mul_basecase_inner r a b i n 0 0 0 mem
        = mul_basecase_inner r a b i (n - k) k high64 aux2 mem1 ∧
      high64 + aux2 < BASE ∧
      (k < n → ∃ mem2 high2 aux2a,
        mul_basecase_inner r a b i (k + 1) 0 0 0 mem = some (mem2, high2, aux2a) ∧
        high2 + aux2a < BASE ∧
        high2 * BASE + aux2a * BASE + limb mem2 r (i + k)
          = limb mem1 a i * limb mem1 b k + (high64 + aux2) + limb mem1 r (i + k) ∧
        limb mem1 r (i + k) = limb mem r (i + k) ∧
        (Separate r (m + n) a m → Separate r (m + n) b n →
          limb mem1 a i = limb mem a i ∧ limb mem1 b k = limb mem b k))) := by
  have hB := BASE_pos
  constructor
  · obtain ⟨mem1, h1, c1, hrun, hhc, hb1, hr1, hframe⟩ :=
      mul_ui_loop_total r b v n hv k 0 0 0 mem (by omega) (by omega) hb
        ⟨by have := hr.1; omega, fun t ht => hr.2 t (by omega)⟩
    refine ⟨mem1, h1, c1, hrun, ?_, hhc, ?_⟩
    · have := mul_ui_loop_append r b v k (n - k) 0 0 0 mem
      rw [show k + (n - k) = n by omega, hrun] at this
      simpa using this
    · intro hlt
      have hla : b.off + k < (mem1 b.blk).length := by have := hb1.1; omega
      have hlr : r.off + k < (mem1 r.blk).length := by have := hr1.1; omega
      obtain ⟨e1, e2, e3⟩ := mul_step_spec hhc (hb1.2 k hlt) hv (hr1.2 k hlt)
      generalize hms : mul_step h1 c1 (limb mem1 b k) v (limb mem1 r k) = ms at e1 e2 e3
      obtain ⟨hn, cn, rn⟩ := ms
      simp only at e1 e2 e3
      refine ⟨mem1.write r k rn, hn, cn, ?_, e1, ?_, hframe r k (by omega), ?_⟩
      · have := mul_ui_loop_append r b v k 1 0 0 0 mem
        rw [this, hrun]
        simp only [Option.some_bind, mul_ui_loop, Nat.zero_add, load_of_lt hla, load_of_lt hlr,
          hms, store_of_lt rn hlr, Option.bind_eq_bind]
      · rw [limb_write_same rn hlr]
        linarith [e3]
      · intro hs
        unfold ReadSafe at hs
        exact hframe b k (by omega)
  · obtain ⟨mem1, h1, c1, hrun, hhc, ha1, hb1, hr1, hframe⟩ :=
      mul_basecase_inner_total r a b i m n hi k 0 0 0 mem (by omega) (by omega) ha hb hr
    refine ⟨mem1, h1, c1, hrun, ?_, hhc, ?_⟩
    · have := mul_basecase_inner_append r a b i k (n - k) 0 0 0 mem
      rw [show k + (n - k) = n by omega, hrun] at this
      simpa using this
    · intro hlt
      have hla : a.off + i < (mem1 a.blk).length := by have := ha1.1; omega
      have hlb : b.off + k < (mem1 b.blk).length := by have := hb1.1; omega
      have hlr : r.off + (i + k) < (mem1 r.blk).length := by have := hr1.1; omega
      obtain ⟨e1, e2, e3⟩ :=
        mul_step_spec hhc (ha1.2 i hi) (hb1.2 k hlt) (hr1.2 (i + k) (by omega))
      generalize hms : mul_step h1 c1 (limb mem1 a i) (limb mem1 b k) (limb mem1 r (i + k)) = ms
        at e1 e2 e3
      obtain ⟨hn, cn, rn⟩ := ms
      simp only at e1 e2 e3
      refine ⟨mem1.write r (i + k) rn, hn, cn, ?_, e1, ?_, hframe r (i + k) (by omega), ?_⟩
      · have := mul_basecase_inner_append r a b i k 1 0 0 0 mem
        rw [this, hrun]
        simp only [Option.some_bind, mul_basecase_inner, Nat.zero_add, load_of_lt hla,
          load_of_lt hlb, load_of_lt hlr, hms, store_of_lt rn hlr, Option.bind_eq_bind]
      · rw [limb_write_same rn hlr]
        linarith [e3]
      · intro hsa hsb
        unfold Separate at hsa hsb
        exact ⟨hframe a i (by omega), hframe b k (by omega)⟩

/-- Two instances of `mul_carry_chain_never_wraps`, all limbs `2^64 - 1`, row 1,
after one iteration: with three separate objects, and with both operands lying
inside the result array (`a` its low half, `b` its high half). -/
theorem mul_carry_chain_never_wraps_witness :
    (IsArray chain_mem ⟨0, 0⟩ 2 ∧ IsArray chain_mem ⟨1, 0⟩ 2 ∧ IsArray chain_mem ⟨2, 0⟩ (2 + 2) ∧
      IsArray chain_mem ⟨2, 2⟩ 2 ∧ IsArray chain_mem ⟨2, 0⟩ 2 ∧ 2 ^ 64 - 1 < BASE ∧
      (mul_basecase_inner ⟨2, 0⟩ ⟨0, 0⟩ ⟨1, 0⟩ 1 1 0 0 0 chain_mem).map (fun s => s.2)
        = some (2 ^ 64 - 2, 1) ∧
      (mul_basecase_inner ⟨2, 0⟩ ⟨2, 0⟩ ⟨2, 2⟩ 1 1 0 0 0 chain_mem).map (fun s => s.2)
        = some (2 ^ 64 - 2, 1)) ∧
    (∃ mem1 high64 aux2,
      mul_ui_loop ⟨2, 0⟩ ⟨1, 0⟩ (2 ^ 64 - 1) 1 0 0 0 chain_mem = some (mem1, high64, aux2) ∧
      high64 + aux2 < BASE) ∧
    (∃ mem1 high64 aux2,
      mul_basecase_inner ⟨2, 0⟩ ⟨0, 0⟩ ⟨1, 0⟩ 1 1 0 0 0 chain_mem = some (mem1, high64, aux2) ∧
      high64 + aux2 < BASE) ∧
    (∃ mem1 high64 aux2,
      mul_basecase_inner ⟨2, 0⟩ ⟨2, 0⟩ ⟨2, 2⟩ 1 1 0 0 0 chain_mem = some (mem1, high64, aux2) ∧
      high64 + aux2 < BASE) :=
  ⟨by decide,
   match (mul_carry_chain_never_wraps chain_mem ⟨2, 0⟩ ⟨0, 0⟩ ⟨1, 0⟩ 2 2 (2 ^ 64 - 1) 1 1
      (by decide) (by decide) (by decide) (by decide) (by decide) (by decide)).1 with
   | ⟨m1, h, c, h1, _, h3, _⟩ => ⟨m1, h, c, h1, h3⟩,
   match (mul_carry_chain_never_wraps chain_mem ⟨2, 0⟩ ⟨0, 0⟩ ⟨1, 0⟩ 2 2 (2 ^ 64 - 1) 1 1
      (by decide) (by decide) (by decide) (by decide) (by decide) (by decide)).2 with
   | ⟨m1, h, c, h1, _, h3, _⟩ => ⟨m1, h, c, h1, h3⟩,
   match (mul_carry_chain_never_wraps chain_mem ⟨2, 0⟩ ⟨2, 0⟩ ⟨2, 2⟩ 2 2 (2 ^ 64 - 1) 1 1
      (by decide) (by decide) (by decide) (by decide) (by decide) (by decide)).2 with
   | ⟨m1, h, c, h1, _, h3, _⟩ => ⟨m1, h, c, h1, h3⟩⟩

end Libapac
